import Mathlib

set_option maxHeartbeats 1000000

namespace Cookbook

/-- JSON values as handled by Python's json module in the cookbook app:
null, booleans, integers, strings, arrays, objects.  (Float literals are
outside the model; the recipe data never contains numbers at all.)
Objects are association lists in insertion order, mirroring Python dicts. -/
inductive Json where
  | null : Json
  | bool : Bool → Json
  | num : Int → Json
  | str : String → Json
  | arr : List Json → Json
  | obj : List (String × Json) → Json

/-- Python truthiness of a JSON value (used by `if r and r.get("image")` etc.). -/
def Json.truthy : Json → Bool
  | .null => false
  | .bool b => b
  | .num n => n != 0
  | .str s => s ≠ ""
  | .arr xs => !xs.isEmpty
  | .obj fs => !fs.isEmpty

/-- Lookup in an association list (Python `dict.get` without default). -/
def assocLookup (l : List (String × Json)) (k : String) : Option Json :=
  match l with
  | [] => none
  | (k', v) :: rest => if k' = k then some v else assocLookup rest k

/-- Python dict assignment `d[k] = v`: replace in place if the key exists,
otherwise append at the end (insertion order is preserved). -/
def assocInsert (l : List (String × Json)) (k : String) (v : Json) :
    List (String × Json) :=
  match l with
  | [] => [(k, v)]
  | (k', v') :: rest =>
      if k' = k then (k, v) :: rest else (k', v') :: assocInsert rest k v

/-- Python `dict.pop(k, None)`: the removed value (if any) and the remaining
entries in their original order. -/
def assocPop (l : List (String × Json)) (k : String) :
    Option Json × List (String × Json) :=
  match l with
  | [] => (none, [])
  | (k', v) :: rest =>
      if k' = k then (some v, rest)
      else
        let r := assocPop rest k
        (r.1, (k', v) :: r.2)

/-- Generic association-list overwrite used for the model of the image
directory (writing a file replaces an existing file of the same name). -/
def filesInsert (l : List (String × List Nat)) (k : String) (v : List Nat) :
    List (String × List Nat) :=
  match l with
  | [] => [(k, v)]
  | (k', v') :: rest =>
      if k' = k then (k, v) :: rest else (k', v') :: filesInsert rest k v

/-- Deleting a file from the modelled image directory (`Path.unlink` with the
surrounding `try/except: pass`: removing a missing file is a no-op). -/
def filesErase (l : List (String × List Nat)) (k : String) :
    List (String × List Nat) :=
  match l with
  | [] => []
  | (k', v) :: rest =>
      if k' = k then rest else (k', v) :: filesErase rest k

/-- Lookup in the modelled image directory. -/
def filesLookup (l : List (String × List Nat)) (k : String) : Option (List Nat) :=
  match l with
  | [] => none
  | (k', v) :: rest => if k' = k then some v else filesLookup rest k

/-! ### Python string helpers -/

/-- The characters Python's `str.strip()` removes (ASCII whitespace; the model
restricts Python's full Unicode whitespace set to its ASCII part). -/
def pyIsSpace (c : Char) : Bool :=
  c = ' ' || c = '\t' || c = '\n' || c = '\r' || c = '\x0b' || c = '\x0c'

/-- Python `str.strip()`. -/
def pyStrip (s : String) : String :=
  String.mk (((s.toList.dropWhile pyIsSpace).reverse.dropWhile pyIsSpace).reverse)

/-- Python `str.lower()` (restricted to ASCII case mapping). -/
def pyLower (s : String) : String :=
  String.mk (s.toList.map Char.toLower)

/-- Is `needle` a contiguous infix of `hay`?  This models the Python
substring test `needle in hay`. -/
def subList (needle hay : List Char) : Bool :=
  match hay with
  | [] => needle.isEmpty
  | _ :: t => needle.isPrefixOf hay || subList needle t

/-- Python `needle in hay` on strings. -/
def pyContains (hay needle : String) : Bool :=
  subList needle.toList hay.toList

/-- Split a character list on a separator character, keeping empty pieces
(Python `str.split(sep)` semantics). -/
def splitOnChar (sep : Char) : List Char → List (List Char)
  | [] => [[]]
  | c :: cs =>
      let r := splitOnChar sep cs
      if c = sep then [] :: r
      else
        match r with
        | [] => [[c]]
        | p :: ps => (c :: p) :: ps

/-- Python `str.splitlines()` (restricted to the line breaks `\n`, `\r\n`,
`\r`; the trailing segment is dropped when empty). -/
def pySplitLinesAux : List Char → List Char → List (List Char)
  | [], acc => if acc.isEmpty then [] else [acc.reverse]
  | '\r' :: '\n' :: rest, acc => acc.reverse :: pySplitLinesAux rest []
  | '\r' :: rest, acc => acc.reverse :: pySplitLinesAux rest []
  | '\n' :: rest, acc => acc.reverse :: pySplitLinesAux rest []
  | c :: rest, acc => pySplitLinesAux rest (c :: acc)

/-- Python `str.splitlines()`. -/
def pySplitLines (s : String) : List String :=
  (pySplitLinesAux s.toList []).map String.mk

/-! ### `pathlib.Path(...).suffix` -/

/-- The final path component, as `pathlib` computes `Path(p).name`
(trailing and repeated slashes are ignored). -/
def pathNameChars (p : List Char) : List Char :=
  ((splitOnChar '/' p).filter (fun part => !part.isEmpty)).getLastD []

/-- `pathlib.Path(p).suffix`: the extension of the final component, from its
last dot; empty when there is no dot, when the dot is the first character of
the component (hidden files), or when it is the last character. -/
def pathSuffixChars (p : List Char) : List Char :=
  let name := pathNameChars p
  let rev := name.reverse
  let k := (rev.takeWhile (fun c => c ≠ '.')).length
  if k = rev.length then []
  else if k = 0 then []
  else if k + 1 = rev.length then []
  else '.' :: (rev.take k).reverse

/-- `pathlib.Path(p).suffix` on strings. -/
def pathSuffix (p : String) : String :=
  String.mk (pathSuffixChars p.toList)

/-! ### Serialization: Python `json.dumps(..., ensure_ascii=False, indent=2)` -/

/-- The decimal digit character for a value below ten. -/
def digitChar (d : Nat) : Char := Char.ofNat (48 + d)

/-- Decimal digits of a natural number, most significant first. -/
def natChars (m : Nat) : List Char :=
  if m = 0 then ['0'] else (Nat.digits 10 m).reverse.map digitChar

/-- Python `repr` of an integer, as emitted by `json.dumps`. -/
def intChars (n : Int) : List Char :=
  if n < 0 then '-' :: natChars n.natAbs else natChars n.toNat

/-- Lower-case hexadecimal digit character for a value below sixteen. -/
def hexChar (d : Nat) : Char :=
  if d < 10 then digitChar d else Char.ofNat (87 + d)

/-- How `json.dumps` escapes one character inside a string literal, with
`ensure_ascii=False`: backslash, double quote and the C0 control characters
are escaped (the latter as `\b \t \n \f \r` or `\u00XX`), every other
character — in particular all non-ASCII text — is emitted verbatim. -/
def escChar (c : Char) : List Char :=
  if c = '"' then ['\\', '"']
  else if c = '\\' then ['\\', '\\']
  else if c = '\x08' then ['\\', 'b']
  else if c = '\x0c' then ['\\', 'f']
  else if c = '\n' then ['\\', 'n']
  else if c = '\r' then ['\\', 'r']
  else if c = '\t' then ['\\', 't']
  else if c.toNat < 0x20 then
    ['\\', 'u', '0', '0', hexChar (c.toNat / 16), hexChar (c.toNat % 16)]
  else [c]

/-- A JSON string literal for `s`: quotes around the escaped characters. -/
def renderString (s : String) : List Char :=
  '"' :: (s.toList.map escChar).flatten ++ ['"']

/-- The indentation emitted at nesting level `lvl` for `indent=2`. -/
def indentChars (lvl : Nat) : List Char := List.replicate (2 * lvl) ' '

mutual

/-- `json.dumps(j, ensure_ascii=False, indent=2)` at nesting level `lvl`:
with an indent, the item separator is `,` + newline + indentation and the
key separator is `: `; empty containers stay on one line. -/
def renderJson (lvl : Nat) : Json → List Char
  | .null => ['n', 'u', 'l', 'l']
  | .bool true => ['t', '\x72', 'u', 'e']
  | .bool false => ['f', 'a', 'l', 's', 'e']
  | .num n => intChars n
  | .str s => renderString s
  | .arr [] => ['[', ']']
  | .arr (x :: xs) =>
      '[' :: '\n' :: (indentChars (lvl + 1) ++ renderJson (lvl + 1) x ++
        renderArrTail (lvl + 1) xs ++ '\n' :: (indentChars lvl ++ [']']))
  | .obj [] => ['{', '}']
  | .obj (f :: fs) =>
      '{' :: '\n' :: (indentChars (lvl + 1) ++ renderField (lvl + 1) f ++
        renderObjTail (lvl + 1) fs ++ '\n' :: (indentChars lvl ++ ['}']))

/-- One `"key": value` pair. -/
def renderField (lvl : Nat) : String × Json → List Char
  | (k, v) => renderString k ++ ':' :: ' ' :: renderJson lvl v

/-- The remaining array items, each preceded by `,` + newline + indent. -/
def renderArrTail (lvl : Nat) : List Json → List Char
  | [] => []
  | x :: xs =>
      ',' :: '\n' :: (indentChars lvl ++ renderJson lvl x ++ renderArrTail lvl xs)

/-- The remaining object fields, each preceded by `,` + newline + indent. -/
def renderObjTail (lvl : Nat) : List (String × Json) → List Char
  | [] => []
  | f :: fs =>
      ',' :: '\n' :: (indentChars lvl ++ renderField lvl f ++ renderObjTail lvl fs)

end

/-- The text written by `json.dump(j, f, ensure_ascii=False, indent=2)` and
returned by `json.dumps(j, ensure_ascii=False, indent=2)`. -/
def pyJsonDumps (j : Json) : String :=
  String.mk (renderJson 0 j)

/-! ### Parsing: Python `json.loads` (strict mode) on the modelled grammar -/

/-- The whitespace characters `json.loads` skips between tokens. -/
def jsonWs (c : Char) : Bool :=
  c = ' ' || c = '\t' || c = '\n' || c = '\r'

/-- Skip inter-token whitespace. -/
def skipWs (cs : List Char) : List Char := cs.dropWhile jsonWs

/-- The value of one hexadecimal digit, upper or lower case. -/
def hexVal (c : Char) : Option Nat :=
  if '0' ≤ c ∧ c ≤ '9' then some (c.toNat - 48)
  else if 'a' ≤ c ∧ c ≤ 'f' then some (c.toNat - 87)
  else if 'A' ≤ c ∧ c ≤ 'F' then some (c.toNat - 55)
  else none

/-- Is `n` a Unicode scalar value?  `json.loads` additionally accepts lone
surrogates in `\uXXXX` escapes (Python strings may hold them); those are
outside this model, whose characters are scalar values. -/
def validScalar (n : Nat) : Bool :=
  decide (n < 0xD800 ∨ (0xE000 ≤ n ∧ n < 0x110000))

/-- Parse the body of a JSON string literal (the opening quote is already
consumed): returns the decoded characters and the input after the closing
quote.  Strict mode: raw control characters are rejected; the recognised
escapes are `\" \\ \/ \b \f \n \r \t \uXXXX`. -/
def parseStrChars : List Char → Option (List Char × List Char)
  | [] => none
  | c :: rest =>
      if c = '"' then some ([], rest)
      else if c = '\\' then
        match rest with
        | [] => none
        | e :: rest2 =>
            if e = '"' then
              (parseStrChars rest2).map (fun r => ('"' :: r.1, r.2))
            else if e = '\\' then
              (parseStrChars rest2).map (fun r => ('\\' :: r.1, r.2))
            else if e = '/' then
              (parseStrChars rest2).map (fun r => ('/' :: r.1, r.2))
            else if e = 'b' then
              (parseStrChars rest2).map (fun r => ('\x08' :: r.1, r.2))
            else if e = 'f' then
              (parseStrChars rest2).map (fun r => ('\x0c' :: r.1, r.2))
            else if e = 'n' then
              (parseStrChars rest2).map (fun r => ('\n' :: r.1, r.2))
            else if e = 'r' then
              (parseStrChars rest2).map (fun r => ('\r' :: r.1, r.2))
            else if e = 't' then
              (parseStrChars rest2).map (fun r => ('\t' :: r.1, r.2))
            else if e = 'u' then
              match rest2 with
              | a :: b :: c2 :: d :: rest3 =>
                  match hexVal a, hexVal b, hexVal c2, hexVal d with
                  | some x, some y, some z, some w =>
                      let n := ((x * 16 + y) * 16 + z) * 16 + w
                      if validScalar n then
                        (parseStrChars rest3).map
                          (fun r => (Char.ofNat n :: r.1, r.2))
                      else none
                  | _, _, _, _ => none
              | _ => none
            else none
      else if c.toNat < 0x20 then none
      else (parseStrChars rest).map (fun r => (c :: r.1, r.2))

/-- Is `c` one of `0`–`9`? -/
def isDigitChar (c : Char) : Bool := 48 ≤ c.toNat && c.toNat ≤ 57

/-- Digit run to a natural number. -/
def charsToNat (ds : List Char) : Nat :=
  ds.foldl (fun a c => 10 * a + (c.toNat - 48)) 0

/-- Parse an unsigned JSON integer: one or more digits, with no leading zero
unless the number is exactly `0` (Python's `NUMBER_RE`). -/
def parseNatNum (cs : List Char) : Option (Nat × List Char) :=
  match cs.takeWhile isDigitChar with
  | [] => none
  | d :: ds =>
      if d = '0' ∧ ds ≠ [] then none
      else some (charsToNat (d :: ds), cs.dropWhile isDigitChar)

/-- The body of the value parser once the first significant character `c`
is known; `goFields` and `goItems` are the object-field and array-item
loops at the current fuel. -/
def parseValBody
    (goFields : List Char → List (String × Json) → Option (Json × List Char))
    (goItems : List Char → List Json → Option (Json × List Char))
    (c : Char) (rest : List Char) : Option (Json × List Char) :=
  if c = '{' then
    match skipWs rest with
    | [] => none
    | c2 :: r2 =>
        if c2 = '}' then some (.obj [], r2)
        else goFields (c2 :: r2) []
  else if c = '[' then
    match skipWs rest with
    | [] => none
    | c2 :: r2 =>
        if c2 = ']' then some (.arr [], r2)
        else goItems (c2 :: r2) []
  else if c = '"' then
    (parseStrChars rest).map (fun r => (.str (String.mk r.1), r.2))
  else if c = 'n' then
    match rest with
    | 'u' :: 'l' :: 'l' :: r => some (.null, r)
    | _ => none
  else if c = 't' then
    match rest with
    | 'r' :: 'u' :: 'e' :: r => some (.bool true, r)
    | _ => none
  else if c = 'f' then
    match rest with
    | 'a' :: 'l' :: 's' :: 'e' :: r => some (.bool false, r)
    | _ => none
  else if c = '-' then
    (parseNatNum rest).map (fun r => (.num (-(r.1 : Int)), r.2))
  else
    (parseNatNum (c :: rest)).map (fun r => (.num (r.1 : Int), r.2))

/-- After one array item `v` with remaining input `r1`: a comma continues
the loop `go`, a closing bracket finishes the array. -/
def parseItemsStep
    (go : List Char → List Json → Option (Json × List Char))
    (acc : List Json) (v : Json) (r1 : List Char) :
    Option (Json × List Char) :=
  match skipWs r1 with
  | [] => none
  | c :: r2 =>
      if c = ',' then go r2 (acc ++ [v])
      else if c = ']' then some (.arr (acc ++ [v]), r2)
      else none

/-- The body of the object-field loop: a `"key": value` pair followed by a
comma (continue with `goF`) or a closing brace.  Duplicate keys behave like
Python's `dict(pairs)`: the later value wins, at the first occurrence's
position. -/
def parseFieldsBody
    (goV : List Char → Option (Json × List Char))
    (goF : List Char → List (String × Json) → Option (Json × List Char))
    (acc : List (String × Json)) (c : Char) (rest : List Char) :
    Option (Json × List Char) :=
  if c = '"' then
    match parseStrChars rest with
    | none => none
    | some (k, r1) =>
        match skipWs r1 with
        | [] => none
        | c2 :: r2 =>
            if c2 = ':' then
              match goV r2 with
              | none => none
              | some (v, r3) =>
                  match skipWs r3 with
                  | [] => none
                  | c3 :: r4 =>
                      if c3 = ',' then
                        goF (skipWs r4) (assocInsert acc (String.mk k) v)
                      else if c3 = '}' then
                        some (.obj (assocInsert acc (String.mk k) v), r4)
                      else none
            else none
  else none

/-- The three mutually recursive entry points of the recursive-descent
parser, packaged as one call type so that the parser is a single function
structurally recursive on its fuel (and hence evaluable by the kernel). -/
inductive PCall where
  | val : List Char → PCall
  | items : List Char → List Json → PCall
  | fields : List Char → List (String × Json) → PCall

/-- The fueled parser: a value, an array-item loop, or an object-field
loop.  The fuel argument only bounds recursion depth; `parseJsonChars`
supplies enough for any input. -/
def parseStep : Nat → PCall → Option (Json × List Char)
  | 0, _ => none
  | fuel + 1, .val cs =>
      match skipWs cs with
      | [] => none
      | c :: rest =>
          parseValBody (fun cs2 acc => parseStep fuel (.fields cs2 acc))
            (fun cs2 acc => parseStep fuel (.items cs2 acc)) c rest
  | fuel + 1, .items cs acc =>
      match parseStep fuel (.val cs) with
      | none => none
      | some (v, r1) =>
          parseItemsStep (fun cs2 acc2 => parseStep fuel (.items cs2 acc2))
            acc v r1
  | fuel + 1, .fields cs acc =>
      match cs with
      | [] => none
      | c :: rest =>
          parseFieldsBody (fun cs2 => parseStep fuel (.val cs2))
            (fun cs2 acc2 => parseStep fuel (.fields cs2 acc2)) acc c rest

/-- Parse one JSON value after skipping leading whitespace. -/
def parseVal (fuel : Nat) (cs : List Char) : Option (Json × List Char) :=
  parseStep fuel (.val cs)

/-- Parse the items of a non-empty array, the first item starting at `cs`. -/
def parseItems (fuel : Nat) (cs : List Char) (acc : List Json) :
    Option (Json × List Char) :=
  parseStep fuel (.items cs acc)

/-- Parse the fields of a non-empty object, the first key starting at `cs`
(whitespace before it already skipped). -/
def parseFields (fuel : Nat) (cs : List Char) (acc : List (String × Json)) :
    Option (Json × List Char) :=
  parseStep fuel (.fields cs acc)

mutual

/-- Recursion-depth bound sufficient for `parseVal` to parse the rendering
of `j` (the parser's fuel argument only has to dominate this). -/
def jsonFuel : Json → Nat
  | .null => 1
  | .bool _ => 1
  | .num _ => 1
  | .str _ => 1
  | .arr xs => 1 + itemsFuel xs
  | .obj fs => 1 + fieldsFuel fs

/-- Depth bound for `parseItems` over the given items. -/
def itemsFuel : List Json → Nat
  | [] => 0
  | x :: xs => 1 + jsonFuel x + itemsFuel xs

/-- Depth bound for `parseFields` over the given fields. -/
def fieldsFuel : List (String × Json) → Nat
  | [] => 0
  | f :: fs => 1 + jsonFuel f.2 + fieldsFuel fs

end

/-- `json.loads` on a character list: parse one value, then require only
whitespace to remain. -/
def parseJsonChars (cs : List Char) : Option Json :=
  match parseVal (cs.length + 1) cs with
  | some (j, rest) => if (skipWs rest).isEmpty then some j else none
  | none => none

/-- `json.loads` on a string. -/
def parseJson (s : String) : Option Json := parseJsonChars s.toList

/-! ### UTF-8 (`str.encode("utf-8")` and the decoding done by `json.load`) -/

/-- UTF-8 encoding of one character. -/
def utf8EncodeChar (c : Char) : List Nat :=
  let n := c.toNat
  if n < 0x80 then [n]
  else if n < 0x800 then [0xC0 + n / 0x40, 0x80 + n % 0x40]
  else if n < 0x10000 then
    [0xE0 + n / 0x1000, 0x80 + n / 0x40 % 0x40, 0x80 + n % 0x40]
  else
    [0xF0 + n / 0x40000, 0x80 + n / 0x1000 % 0x40, 0x80 + n / 0x40 % 0x40,
      0x80 + n % 0x40]

/-- `s.encode("utf-8")` as a byte list. -/
def utf8Encode (s : String) : List Nat :=
  (s.toList.map utf8EncodeChar).flatten

/-- Is `b` a UTF-8 continuation byte? -/
def utf8Cont (b : Nat) : Bool := 0x80 ≤ b && b < 0xC0

/-- Strict UTF-8 decoding of one character (as Python's
`bytes.decode("utf-8")`): rejects continuation-byte errors, overlong forms,
surrogates and out-of-range values; returns the character and the remaining
bytes. -/
def utf8DecodeOne : List Nat → Option (Char × List Nat)
  | [] => none
  | b :: rest =>
      if b < 0x80 then some (Char.ofNat b, rest)
      else if b < 0xC2 then none
      else if b < 0xE0 then
        match rest with
        | b2 :: r =>
            if utf8Cont b2 then
              some (Char.ofNat ((b - 0xC0) * 0x40 + (b2 - 0x80)), r)
            else none
        | _ => none
      else if b < 0xF0 then
        match rest with
        | b2 :: b3 :: r =>
            if utf8Cont b2 && utf8Cont b3 then
              let n := (b - 0xE0) * 0x1000 + (b2 - 0x80) * 0x40 + (b3 - 0x80)
              if 0x800 ≤ n && validScalar n then some (Char.ofNat n, r)
              else none
            else none
        | _ => none
      else if b < 0xF5 then
        match rest with
        | b2 :: b3 :: b4 :: r =>
            if utf8Cont b2 && utf8Cont b3 && utf8Cont b4 then
              let n := (b - 0xF0) * 0x40000 + (b2 - 0x80) * 0x1000 +
                (b3 - 0x80) * 0x40 + (b4 - 0x80)
              if 0x10000 ≤ n && n < 0x110000 then some (Char.ofNat n, r)
              else none
            else none
        | _ => none
      else none

/-- Decode a whole byte list; the fuel only bounds the number of characters
(each character consumes at least one byte, so the byte count suffices). -/
def utf8DecodeLoop : Nat → List Nat → Option (List Char)
  | _, [] => some []
  | 0, _ :: _ => none
  | fuel + 1, bs =>
      match utf8DecodeOne bs with
      | none => none
      | some (c, r) => (utf8DecodeLoop fuel r).map (fun cs => c :: cs)

/-- `bytes.decode("utf-8")` as performed by `json.load` on uploaded bytes. -/
def utf8Decode (bs : List Nat) : Option String :=
  (utf8DecodeLoop bs.length bs).map String.mk

/-! ### Canonical JSON values

Values that can actually arise as contents of a Python dict tree: every
object, at every depth, has pairwise distinct keys (a Python dict cannot
hold a key twice).  Every value produced by `json.loads` or built by the
app is canonical; the association-list model is wider, so theorems that
re-read a saved value assume canonicity. -/

/-- No string occurs twice. -/
def keysDistinct : List String → Bool
  | [] => true
  | k :: ks => !(ks.contains k) && keysDistinct ks

mutual

/-- All objects inside `j` have pairwise distinct keys. -/
def canonical : Json → Bool
  | .null => true
  | .bool _ => true
  | .num _ => true
  | .str _ => true
  | .arr xs => canonicalList xs
  | .obj fs => keysDistinct (fs.map Prod.fst) && canonicalFields fs

/-- `canonical` on every element. -/
def canonicalList : List Json → Bool
  | [] => true
  | x :: xs => canonical x && canonicalList xs

/-- `canonical` on every field value. -/
def canonicalFields : List (String × Json) → Bool
  | [] => true
  | f :: fs => canonical f.2 && canonicalFields fs

end

/-! ### The app's state and the Recipe Store operations -/

/-- The persistent state the app manipulates: the contents of
`data/recipes.json` (absent or some text) and the files of `data/images/`
(name to bytes). -/
structure FS where
  doc : Option String
  images : List (String × List Nat)

/-- `load_recipes()`: read and parse `recipes.json`; an absent file or any
parse failure yields the empty dict. -/
def load_recipes (fs : FS) : Json :=
  match fs.doc with
  | none => .obj []
  | some s =>
      match parseJson s with
      | some j => j
      | none => .obj []

/-- `save_recipes(recipes)`: overwrite `recipes.json` with
`json.dump(recipes, f, ensure_ascii=False, indent=2)`. -/
def save_recipes (recipes : Json) (fs : FS) : FS :=
  { fs with doc := some (pyJsonDumps recipes) }

/-- `add_recipe(title, ingredients, steps, tags, image_bytes, image_name)`.
The two environment-supplied values are explicit parameters: `rid` stands
for `uuid.uuid4().hex` and `now` for `datetime.datetime.utcnow().isoformat()`.
Returns `none` where the Python code would raise (storing into a loaded
value that is not a dict); image bytes are written only when both
`image_bytes is not None` and `image_name` is truthy. -/
def add_recipe (title : String) (ingredients : List String) (steps : String)
    (tags : List String) (image_bytes : Option (List Nat))
    (image_name : Option String) (rid : String) (now : String) (fs : FS) :
    Option FS :=
  let recipes := load_recipes fs
  let withImage : Bool := image_bytes.isSome &&
    (match image_name with | some nm => nm ≠ "" | none => false)
  let image_filename : Option String :=
    if withImage then
      let nm := image_name.getD ""
      let ext := if pathSuffix nm = "" then ".jpg" else pathSuffix nm
      some (rid ++ ext)
    else none
  let images' := match image_filename, image_bytes with
    | some fn, some b => filesInsert fs.images fn b
    | _, _ => fs.images
  match recipes with
  | .obj d =>
      let recipe : Json := .obj [("id", .str rid), ("title", .str title),
        ("ingredients", .arr (ingredients.map .str)), ("steps", .str steps),
        ("tags", .arr (tags.map .str)),
        ("image", match image_filename with
          | some fn => .str fn
          | none => .null),
        ("created_at", .str (now ++ "Z"))]
      some (save_recipes (.obj (assocInsert d rid recipe))
        { fs with images := images' })
  | _ => none

/-- `delete_recipe(rid)`: pop the entry if present; when the popped record
is truthy and its `image` field truthy, unlink the image file, ignoring
unlink failures; save the remaining dict.  `none` where Python would raise
(popping on a non-dict, attribute access on a non-dict record, joining a
path with a non-string image value). -/
def delete_recipe (rid : String) (fs : FS) : Option FS :=
  match load_recipes fs with
  | .obj d =>
      let popped := assocPop d rid
      let imagesAfter : Option (List (String × List Nat)) :=
        match popped.1 with
        | none => some fs.images
        | some r =>
            if r.truthy then
              match r with
              | .obj rf =>
                  let img := (assocLookup rf "image").getD .null
                  if img.truthy then
                    match img with
                    | .str fn => some (filesErase fs.images fn)
                    | _ => none
                  else some fs.images
              | _ => none
            else some fs.images
      imagesAfter.map (fun imgs =>
        save_recipes (.obj popped.2) { fs with images := imgs })
  | _ => none

/-- `export_recipes_bytes()`: the loaded collection serialized with
`ensure_ascii=False, indent=2` and UTF-8 encoded. -/
def export_recipes_bytes (fs : FS) : List Nat :=
  utf8Encode (pyJsonDumps (load_recipes fs))

/-- The per-recipe download payload:
`json.dumps(r, ensure_ascii=False, indent=2).encode("utf-8")`. -/
def export_recipe_bytes (r : Json) : List Nat :=
  utf8Encode (pyJsonDumps r)

/-- The sidebar import handler: `json.load(uploaded)` then
`save_recipes(data)` inside `try/except`; the boolean reports whether the
success message (rather than the import-failure message) is shown.  Any
exception — bad UTF-8 or malformed JSON — leaves the state untouched. -/
def import_recipes (raw : List Nat) (fs : FS) : FS × Bool :=
  match utf8Decode raw with
  | none => (fs, false)
  | some s =>
      match parseJson s with
      | some data => (save_recipes data fs, true)
      | none => (fs, false)

/-! ### The search filter and the add-recipe form handler -/

/-- Auxiliary for `r.get(k, "")  .lower()`-style access: the field must be
a string when present (the documented Recipe shape). -/
def getStrField (fields : List (String × Json)) (k : String) : Option String :=
  match assocLookup fields k with
  | none => some ""
  | some (.str s) => some s
  | some _ => none

/-- Auxiliary for `r.get(k, [])` where the documented shape is an array of
strings. -/
def getStrListField (fields : List (String × Json)) (k : String) :
    Option (List String) :=
  match assocLookup fields k with
  | none => some []
  | some (.arr xs) =>
      xs.mapM (fun x => match x with | .str s => some s | _ => none)
  | some _ => none

/-- One recipe's test in the search list comprehension:
`q in title.lower() or any(q in t.lower() for t in tags)
or any(q in ing.lower() for ing in ingredients)` with `q` already
lower-cased.  `none` where the Python expression would raise on a record
outside the documented shape. -/
def recipeMatches (q : String) (r : Json) : Option Bool :=
  match r with
  | .obj fields => do
      let title ← getStrField fields "title"
      let tags ← getStrListField fields "tags"
      let ings ← getStrListField fields "ingredients"
      some (pyContains (pyLower title) q ||
        tags.any (fun t => pyContains (pyLower t) q) ||
        ings.any (fun t => pyContains (pyLower t) q))
  | _ => none

/-- Keep the recipes whose test succeeds. -/
def filterMatches (q : String) : List Json → Option (List Json)
  | [] => some []
  | r :: rs =>
      match recipeMatches q r, filterMatches q rs with
      | some b, some rest => some (if b then r :: rest else rest)
      | _, _ => none

/-- The search feature (lines 146–154): an empty query leaves the list as
is (`if search_q:` is false), otherwise the query is lower-cased and the
list comprehension keeps the matching recipes. -/
def search_filter (search_q : String) (recipes_list : List Json) :
    Option (List Json) :=
  if search_q = "" then some recipes_list
  else filterMatches (pyLower search_q) recipes_list

/-- The add-recipe form submit handler (lines 106–117): a blank title only
shows an error (`false`, state untouched); otherwise ingredient lines and
comma-separated tags are stripped and filtered and `add_recipe` runs with
the stripped title and steps. -/
def add_recipe_form_submit (title ingredients_text steps tags_text : String)
    (image : Option (String × List Nat)) (rid now : String) (fs : FS) :
    Option (FS × Bool) :=
  if pyStrip title = "" then some (fs, false)
  else
    let ingredients := (pySplitLines ingredients_text).filterMap
      (fun l => if pyStrip l = "" then none else some (pyStrip l))
    let tags := ((splitOnChar ',' tags_text.toList).map String.mk).filterMap
      (fun t => if pyStrip t = "" then none else some (pyStrip t))
    (add_recipe (pyStrip title) ingredients (pyStrip steps) tags
      (image.map Prod.snd) (image.map Prod.fst) rid now fs).map
      (fun fs' => (fs', true))

/-! ### The Recipe Collection shape (from the spec's interface section) -/

/-- Modelled from the spec: a stored Recipe record has fields `id, title,
steps, created_at` (strings), `ingredients, tags` (arrays of strings) and
`image` (string or null).  The code contains no such check; the predicate
only formalizes the shape the spec describes. -/
def recipeShape : Json → Bool
  | .obj fs =>
      (match assocLookup fs "id" with | some (.str _) => true | _ => false) &&
      (match assocLookup fs "title" with | some (.str _) => true | _ => false) &&
      (match assocLookup fs "ingredients" with
        | some (.arr xs) =>
            xs.all (fun x => match x with | .str _ => true | _ => false)
        | _ => false) &&
      (match assocLookup fs "steps" with | some (.str _) => true | _ => false) &&
      (match assocLookup fs "tags" with
        | some (.arr xs) =>
            xs.all (fun x => match x with | .str _ => true | _ => false)
        | _ => false) &&
      (match assocLookup fs "image" with
        | some (.str _) => true
        | some .null => true
        | _ => false) &&
      (match assocLookup fs "created_at" with
        | some (.str _) => true
        | _ => false)
  | _ => false

/-- Modelled from the spec: the Recipe Collection shape — a JSON object
mapping identifier strings to Recipe records. -/
def collectionShape : Json → Bool
  | .obj fs => fs.all (fun f => recipeShape f.2)
  | _ => false

/-- The title a displayed recipe record carries (`r.get("title", "")`,
with the documented string type). -/
def recipeTitle (r : Json) : String :=
  match r with
  | .obj fs =>
      match assocLookup fs "title" with
      | some (.str s) => s
      | _ => ""
  | _ => ""

/-- The string entries of an array-of-strings field (`r.get(k, [])`). -/
def recipeStrList (r : Json) (k : String) : List String :=
  match r with
  | .obj fs =>
      match assocLookup fs k with
      | some (.arr xs) =>
          xs.filterMap (fun x => match x with | .str s => some s | _ => none)
      | _ => []
  | _ => []

/-- The search test as a proposition: the lower-cased query occurs as a
contiguous substring of the lower-cased title, of some lower-cased tag, or
of some lower-cased ingredient line. -/
def MatchesQuery (q : String) (r : Json) : Prop :=
  (∃ pre post, (pyLower (recipeTitle r)).toList =
    pre ++ (pyLower q).toList ++ post) ∨
  (∃ t ∈ recipeStrList r "tags", ∃ pre post,
    (pyLower t).toList = pre ++ (pyLower q).toList ++ post) ∨
  (∃ t ∈ recipeStrList r "ingredients", ∃ pre post,
    (pyLower t).toList = pre ++ (pyLower q).toList ++ post)

/-! ## Lemmas: characters and digits -/

theorem toNat_ofNat_lt (n : Nat) (h : n < 55296) : (Char.ofNat n).toNat = n := by
  have hv : n.isValidChar := Or.inl h
  simp only [Char.ofNat, hv, dif_pos, Char.toNat, Char.ofNatAux, UInt32.ofNat',
    UInt32.toNat, BitVec.toNat_ofNatLt]

theorem char_ne_of_toNat_ne {c d : Char} (h : c.toNat ≠ d.toNat) : c ≠ d :=
  fun he => h (he ▸ rfl)

theorem digitChar_toNat {d : Nat} (h : d < 10) : (digitChar d).toNat = 48 + d :=
  toNat_ofNat_lt _ (by omega)

theorem isDigitChar_digitChar {d : Nat} (h : d < 10) :
    isDigitChar (digitChar d) = true := by
  simp [isDigitChar, digitChar_toNat h]; omega

theorem hexVal_hexChar {d : Nat} (h : d < 16) : hexVal (hexChar d) = some d := by
  interval_cases d <;> decide

theorem jsonWs_toNat {c : Char} (h : jsonWs c = true) :
    c.toNat = 32 ∨ c.toNat = 9 ∨ c.toNat = 10 ∨ c.toNat = 13 := by
  simp only [jsonWs, Bool.or_eq_true, decide_eq_true_eq] at h
  rcases h with ((h | h) | h) | h <;> subst h <;> simp

theorem jsonWs_false_of_digit {c : Char} (h : isDigitChar c = true) :
    jsonWs c = false := by
  cases hw : jsonWs c with
  | false => rfl
  | true =>
      exfalso
      simp only [isDigitChar, Bool.and_eq_true, decide_eq_true_eq] at h
      rcases jsonWs_toNat hw with h' | h' | h' | h' <;> omega

theorem digit_ne_of_toNat {c : Char} (d : Char) (h : isDigitChar c = true)
    (hd : d.toNat < 48 ∨ 57 < d.toNat) : c ≠ d := by
  simp only [isDigitChar, Bool.and_eq_true, decide_eq_true_eq] at h
  exact char_ne_of_toNat_ne (by omega)

/-! ## Lemmas: decimal rendering round-trips through `parseNatNum` -/

theorem natChars_ne_nil (m : Nat) : natChars m ≠ [] := by
  unfold natChars
  split
  · simp
  · next h =>
      simp only [ne_eq, List.map_eq_nil_iff, List.reverse_eq_nil_iff]
      exact Nat.digits_ne_nil_iff_ne_zero.mpr h

theorem natChars_all_digits (m : Nat) :
    ∀ c ∈ natChars m, isDigitChar c = true := by
  intro c hc
  unfold natChars at hc
  split at hc
  · simp at hc; subst hc; decide
  · simp only [List.mem_map, List.mem_reverse] at hc
    obtain ⟨d, hd, rfl⟩ := hc
    exact isDigitChar_digitChar (Nat.digits_lt_base (by norm_num) hd)

theorem foldl_digitChars (L : List Nat) (hL : ∀ d ∈ L, d < 10) (a : Nat) :
    List.foldl (fun a c => 10 * a + (c.toNat - 48)) a (L.reverse.map digitChar)
      = a * 10 ^ L.length + Nat.ofDigits 10 L := by
  induction L generalizing a with
  | nil => simp
  | cons d L ih =>
      have hd : d < 10 := hL d (by simp)
      have hL' : ∀ x ∈ L, x < 10 := fun x hx => hL x (by simp [hx])
      simp only [List.reverse_cons, List.map_append, List.foldl_append, ih hL',
        List.map_cons, List.map_nil, List.foldl_cons, List.foldl_nil,
        digitChar_toNat hd, Nat.ofDigits_cons, List.length_cons]
      have h48 : 48 + d - 48 = d := by omega
      rw [h48, pow_succ]
      ring

theorem charsToNat_natChars (m : Nat) : charsToNat (natChars m) = m := by
  unfold charsToNat natChars
  split
  · next h => subst h; decide
  · next h =>
      rw [foldl_digitChars _ (fun d hd => Nat.digits_lt_base (by norm_num) hd)]
      simp [Nat.ofDigits_digits]

theorem natChars_zero_head (m : Nat) (ds : List Char)
    (h : natChars m = '0' :: ds) : ds = [] := by
  by_cases hm : m = 0
  · subst hm
    have h0 : natChars 0 = ['0'] := rfl
    rw [h0] at h
    injection h with h1 h2
    exact h2.symm
  · exfalso
    unfold natChars at h
    rw [if_neg hm] at h
    rcases List.eq_nil_or_concat' (Nat.digits 10 m) with hnil | ⟨L', ℓ, hL⟩
    · exact absurd hnil (Nat.digits_ne_nil_iff_ne_zero.mpr hm)
    · rw [hL] at h
      simp only [List.reverse_append, List.reverse_cons, List.reverse_nil,
        List.nil_append, List.singleton_append, List.map_cons,
        List.cons.injEq] at h
      have hℓ : ℓ < 10 := Nat.digits_lt_base (by norm_num) (by rw [hL]; simp)
      have htn : (digitChar ℓ).toNat = ('0' : Char).toNat := by rw [h.1]
      rw [digitChar_toNat hℓ] at htn
      have hz : ℓ = 0 := by
        have h48 : ('0' : Char).toNat = 48 := by decide
        omega
      have hne : Nat.digits 10 m ≠ [] := by rw [hL]; simp
      have hlast := Nat.getLast_digit_ne_zero 10 hm
      have h1 : (Nat.digits 10 m).getLast? = some ℓ := by
        rw [hL]; exact List.getLast?_concat _
      have h2 : (Nat.digits 10 m).getLast? =
          some ((Nat.digits 10 m).getLast hne) :=
        List.getLast?_eq_getLast _ hne
      rw [h1] at h2
      exact hlast (by rw [← Option.some_inj.mp h2, hz])

theorem takeWhile_all_append (p : Char → Bool) (L rest : List Char)
    (hL : ∀ c ∈ L, p c = true)
    (hr : ∀ c, rest.head? = some c → p c = false) :
    (L ++ rest).takeWhile p = L ∧ (L ++ rest).dropWhile p = rest := by
  induction L with
  | nil =>
      simp only [List.nil_append]
      cases rest with
      | nil => simp
      | cons c t =>
          have := hr c rfl
          simp [List.takeWhile_cons, List.dropWhile_cons, this]
  | cons c L ih =>
      have hpc := hL c (by simp)
      have ih' := ih (fun x hx => hL x (by simp [hx]))
      simp [List.takeWhile_cons, List.dropWhile_cons, hpc, ih'.1, ih'.2]

theorem parseNatNum_natChars (m : Nat) (rest : List Char)
    (hrest : ∀ c, rest.head? = some c → isDigitChar c = false) :
    parseNatNum (natChars m ++ rest) = some (m, rest) := by
  obtain ⟨htake, hdrop⟩ :=
    takeWhile_all_append isDigitChar (natChars m) rest (natChars_all_digits m)
      hrest
  cases hnc : natChars m with
  | nil => exact absurd hnc (natChars_ne_nil m)
  | cons d ds =>
      have hno : ¬(d = '0' ∧ ds ≠ []) := by
        rintro ⟨rfl, h2⟩
        exact h2 (natChars_zero_head m ds hnc)
      have hcv := charsToNat_natChars m
      rw [hnc] at hcv htake hdrop
      unfold parseNatNum
      rw [htake, hdrop]
      show (if d = '0' ∧ ds ≠ [] then none
        else some (charsToNat (d :: ds), rest)) = some (m, rest)
      rw [if_neg hno, hcv]

/-! ## Lemmas: string escaping round-trips through `parseStrChars` -/

theorem parseStrChars_escChar (c : Char) (tail : List Char) :
    parseStrChars (escChar c ++ tail)
      = (parseStrChars tail).map (fun r => (c :: r.1, r.2)) := by
  unfold escChar
  by_cases h1 : c = '"'
  · subst h1
    conv_lhs => rw [if_pos rfl]; unfold parseStrChars
    simp
  rw [if_neg h1]
  by_cases h2 : c = '\\'
  · subst h2
    conv_lhs => rw [if_pos rfl]; unfold parseStrChars
    simp
  rw [if_neg h2]
  by_cases h3 : c = '\x08'
  · subst h3
    conv_lhs => rw [if_pos rfl]; unfold parseStrChars
    simp
  rw [if_neg h3]
  by_cases h4 : c = '\x0c'
  · subst h4
    conv_lhs => rw [if_pos rfl]; unfold parseStrChars
    simp
  rw [if_neg h4]
  by_cases h5 : c = '\n'
  · subst h5
    conv_lhs => rw [if_pos rfl]; unfold parseStrChars
    simp
  rw [if_neg h5]
  by_cases h6 : c = '\r'
  · subst h6
    conv_lhs => rw [if_pos rfl]; unfold parseStrChars
    simp
  rw [if_neg h6]
  by_cases h7 : c = '\t'
  · subst h7
    conv_lhs => rw [if_pos rfl]; unfold parseStrChars
    simp
  rw [if_neg h7]
  by_cases h8 : c.toNat < 0x20
  · rw [if_pos h8]
    have hdiv : c.toNat / 16 < 16 := by omega
    have hmod : c.toNat % 16 < 16 := Nat.mod_lt _ (by norm_num)
    have hn : ((0 * 16 + 0) * 16 + c.toNat / 16) * 16 + c.toNat % 16
        = c.toNat := by
      have := Nat.div_add_mod c.toNat 16
      omega
    have h0 : hexVal '0' = some 0 := by decide
    have hn' : c.toNat / 16 * 16 + c.toNat % 16 = c.toNat := by omega
    have hv : validScalar c.toNat = true := by
      simp only [validScalar, decide_eq_true_eq]
      left; omega
    conv_lhs => unfold parseStrChars
    simp [h0, hexVal_hexChar hdiv, hexVal_hexChar hmod, hn, hn', hv,
      Char.ofNat_toNat]
  · rw [if_neg h8]
    conv_lhs => unfold parseStrChars
    simp only [List.cons_append, List.nil_append]
    rw [if_neg h1, if_neg h2, if_neg h8]

theorem parseStrChars_escaped (l : List Char) (rest : List Char) :
    parseStrChars ((l.map escChar).flatten ++ '"' :: rest) = some (l, rest) := by
  induction l with
  | nil =>
      simp only [List.map_nil, List.flatten_nil, List.nil_append]
      conv_lhs => unfold parseStrChars
      simp
  | cons c l ih =>
      simp only [List.map_cons, List.flatten_cons, List.append_assoc,
        parseStrChars_escChar, ih, Option.map_some']

/-! ## Lemmas: whitespace skipping and rendering heads -/

theorem skipWs_cons_of_ws {c : Char} (h : jsonWs c = true) (t : List Char) :
    skipWs (c :: t) = skipWs t := by
  simp [skipWs, List.dropWhile_cons, h]

theorem skipWs_cons_of_not_ws {c : Char} (h : jsonWs c = false) (t : List Char) :
    skipWs (c :: t) = c :: t := by
  simp [skipWs, List.dropWhile_cons, h]

theorem skipWs_replicate_space (n : Nat) (t : List Char) :
    skipWs (List.replicate n ' ' ++ t) = skipWs t := by
  induction n with
  | zero => simp
  | succ n ih =>
      rw [List.replicate_succ, List.cons_append,
        skipWs_cons_of_ws (by decide)]
      exact ih

theorem skipWs_indent (lvl : Nat) (t : List Char) :
    skipWs (indentChars lvl ++ t) = skipWs t :=
  skipWs_replicate_space _ _

theorem skipWs_newline_indent (lvl : Nat) (t : List Char) :
    skipWs ('\n' :: (indentChars lvl ++ t)) = skipWs t := by
  rw [skipWs_cons_of_ws (by decide), skipWs_indent]

/-- Every rendered value starts with a character that is not whitespace and
not a closing bracket. -/
theorem renderJson_head (lvl : Nat) (j : Json) :
    ∃ c cs, renderJson lvl j = c :: cs ∧ jsonWs c = false ∧
      c ≠ ']' ∧ c ≠ '}' := by
  cases j with
  | null =>
      exact ⟨'n', _, by unfold renderJson; rfl, by decide, by decide, by decide⟩
  | bool b =>
      cases b with
      | true =>
          exact ⟨'t', _, by unfold renderJson; rfl, by decide, by decide,
            by decide⟩
      | false =>
          exact ⟨'f', _, by unfold renderJson; rfl, by decide, by decide,
            by decide⟩
  | num n =>
      have hr : renderJson lvl (.num n) = intChars n := by
        unfold renderJson; rfl
      unfold intChars at hr
      by_cases hn : n < 0
      · rw [if_pos hn] at hr
        exact ⟨'-', _, hr, by decide, by decide, by decide⟩
      · rw [if_neg hn] at hr
        cases hnc : natChars n.toNat with
        | nil => exact absurd hnc (natChars_ne_nil _)
        | cons d ds =>
            rw [hnc] at hr
            have hd : isDigitChar d = true :=
              natChars_all_digits _ d (by rw [hnc]; simp)
            exact ⟨d, ds, hr, jsonWs_false_of_digit hd,
              digit_ne_of_toNat _ hd (by right; decide),
              digit_ne_of_toNat _ hd (by right; decide)⟩
  | str s =>
      exact ⟨'"', _, by unfold renderJson renderString; rfl, by decide,
        by decide, by decide⟩
  | arr xs =>
      cases xs with
      | nil => exact ⟨'[', _, by unfold renderJson; rfl, by decide, by decide,
          by decide⟩
      | cons x xs => exact ⟨'[', _, by unfold renderJson; rfl, by decide,
          by decide, by decide⟩
  | obj fs =>
      cases fs with
      | nil => exact ⟨'{', _, by unfold renderJson; rfl, by decide, by decide,
          by decide⟩
      | cons f fs => exact ⟨'{', _, by unfold renderJson; rfl, by decide,
          by decide, by decide⟩

theorem skipWs_render (lvl : Nat) (j : Json) (rest : List Char) :
    skipWs (renderJson lvl j ++ rest) = renderJson lvl j ++ rest := by
  obtain ⟨c, cs, hr, hws, _, _⟩ := renderJson_head lvl j
  rw [hr, List.cons_append, skipWs_cons_of_not_ws hws]

/-! ## Lemmas: distinct keys and association-list insertion -/

theorem keysDistinct_eq_true_iff (L : List String) :
    keysDistinct L = true ↔ L.Nodup := by
  induction L with
  | nil => simp [keysDistinct]
  | cons k ks ih =>
      unfold keysDistinct
      rw [Bool.and_eq_true, ih, List.nodup_cons]
      simp [List.elem_iff]

theorem keysDistinct_append_not_mem {A : List String} {k : String}
    {K : List String} (h : keysDistinct (A ++ k :: K) = true) : k ∉ A := by
  have hnd := (keysDistinct_eq_true_iff _).mp h
  rw [List.nodup_append] at hnd
  intro hk
  exact hnd.2.2 hk (by simp)

theorem assocInsert_append {l : List (String × Json)} {k : String} (v : Json)
    (h : k ∉ l.map Prod.fst) : assocInsert l k v = l ++ [(k, v)] := by
  induction l with
  | nil => rfl
  | cons p l ih =>
      obtain ⟨k', v'⟩ := p
      simp only [List.map_cons, List.mem_cons, not_or] at h
      unfold assocInsert
      rw [if_neg (fun he => h.1 he.symm), ih h.2, List.cons_append]

theorem assocLookup_none_iff (l : List (String × Json)) (k : String) :
    assocLookup l k = none ↔ k ∉ l.map Prod.fst := by
  induction l with
  | nil => simp [assocLookup]
  | cons p l ih =>
      unfold assocLookup
      by_cases hp : p.1 = k
      · simp only [hp, if_pos]
        simp [← hp]
      · rw [if_neg ?side]
        case side => exact fun he => hp (by cases p; exact he)
        simp only [ih, List.map_cons, List.mem_cons]
        constructor
        · intro hk hm
          rcases hm with hm | hm
          · exact hp hm.symm
          · exact hk hm
        · intro hk hm
          exact hk (Or.inr hm)

/-! ## Fuel positivity -/

theorem jsonFuel_pos (j : Json) : 1 ≤ jsonFuel j := by
  cases j <;> unfold jsonFuel <;> omega

theorem string_mk_toList (s : String) : String.mk s.toList = s := by
  cases s; rfl

theorem renderField_eq (lvl : Nat) (k : String) (v : Json) :
    renderField lvl (k, v) = '"' :: (((k.toList.map escChar).flatten ++
      ['"']) ++ ':' :: ' ' :: renderJson lvl v) := by
  unfold renderField renderString
  simp [List.cons_append]

theorem jsonFuel_arr (xs : List Json) : jsonFuel (.arr xs) = 1 + itemsFuel xs := by
  conv_lhs => unfold jsonFuel

theorem jsonFuel_obj (fs : List (String × Json)) :
    jsonFuel (.obj fs) = 1 + fieldsFuel fs := by
  conv_lhs => unfold jsonFuel

theorem itemsFuel_cons (x : Json) (xs : List Json) :
    itemsFuel (x :: xs) = 1 + jsonFuel x + itemsFuel xs := by
  conv_lhs => unfold itemsFuel

theorem fieldsFuel_cons (f : String × Json) (fs : List (String × Json)) :
    fieldsFuel (f :: fs) = 1 + jsonFuel f.2 + fieldsFuel fs := by
  conv_lhs => unfold fieldsFuel

theorem renderJson_arr_cons (lvl : Nat) (x : Json) (xs : List Json) :
    renderJson lvl (.arr (x :: xs)) = '[' :: '\n' ::
      (indentChars (lvl + 1) ++ renderJson (lvl + 1) x ++
        renderArrTail (lvl + 1) xs ++ '\n' :: (indentChars lvl ++ [']'])) := by
  conv_lhs => unfold renderJson

theorem renderJson_obj_cons (lvl : Nat) (f : String × Json)
    (fs : List (String × Json)) :
    renderJson lvl (.obj (f :: fs)) = '{' :: '\n' ::
      (indentChars (lvl + 1) ++ renderField (lvl + 1) f ++
        renderObjTail (lvl + 1) fs ++ '\n' :: (indentChars lvl ++ ['}'])) := by
  conv_lhs => unfold renderJson

theorem renderArrTail_cons (lvl : Nat) (y : Json) (ys : List Json) :
    renderArrTail lvl (y :: ys) = ',' :: '\n' ::
      (indentChars lvl ++ renderJson lvl y ++ renderArrTail lvl ys) := by
  conv_lhs => unfold renderArrTail

theorem renderObjTail_cons (lvl : Nat) (g : String × Json)
    (gs : List (String × Json)) :
    renderObjTail lvl (g :: gs) = ',' :: '\n' ::
      (indentChars lvl ++ renderField lvl g ++ renderObjTail lvl gs) := by
  conv_lhs => unfold renderObjTail

/-! ## Step equations for the fueled parser -/

theorem parseVal_succ (fuel : Nat) (cs : List Char) (c : Char)
    (rest : List Char) (h : skipWs cs = c :: rest) :
    parseVal (fuel + 1) cs =
      parseValBody (parseFields fuel) (parseItems fuel) c rest := by
  unfold parseVal parseStep
  simp only [h]
  rfl

theorem parseItems_succ (fuel : Nat) (cs : List Char) (acc : List Json)
    (v : Json) (r1 : List Char) (h1 : parseVal fuel cs = some (v, r1)) :
    parseItems (fuel + 1) cs acc =
      parseItemsStep (parseItems fuel) acc v r1 := by
  unfold parseItems
  conv_lhs => unfold parseStep
  simp only [show parseStep fuel (.val cs) = some (v, r1) from h1]

theorem parseFields_succ (fuel : Nat) (c : Char) (rest : List Char)
    (acc : List (String × Json)) :
    parseFields (fuel + 1) (c :: rest) acc =
      parseFieldsBody (parseVal fuel) (parseFields fuel) acc c rest := by
  unfold parseFields
  conv_lhs => unfold parseStep
  rfl

theorem parseItemsStep_cons
    (go : List Char → List Json → Option (Json × List Char))
    (acc : List Json) (v : Json) (r1 : List Char) (c : Char)
    (r2 : List Char) (h : skipWs r1 = c :: r2) :
    parseItemsStep go acc v r1 =
      (if c = ',' then go r2 (acc ++ [v])
      else if c = ']' then some (.arr (acc ++ [v]), r2)
      else none) := by
  unfold parseItemsStep
  simp only [h]

theorem parseFieldsBody_run
    (goV : List Char → Option (Json × List Char))
    (goF : List Char → List (String × Json) → Option (Json × List Char))
    (acc : List (String × Json)) (rest1 : List Char) (k : List Char)
    (r1 r2 : List Char) (v : Json) (r3 : List Char) (c3 : Char)
    (r4 : List Char)
    (hstr : parseStrChars rest1 = some (k, r1))
    (h2 : skipWs r1 = ':' :: r2)
    (hval : goV r2 = some (v, r3))
    (h3 : skipWs r3 = c3 :: r4) :
    parseFieldsBody goV goF acc '"' rest1 =
      (if c3 = ',' then goF (skipWs r4) (assocInsert acc (String.mk k) v)
      else if c3 = '}' then
        some (.obj (assocInsert acc (String.mk k) v), r4)
      else none) := by
  unfold parseFieldsBody
  simp only [hstr, h2, hval, h3, if_pos]

/-! ## The parser–printer round-trip -/

theorem parseRound : ∀ fuel : Nat,
    (∀ j lvl cs rest, jsonFuel j ≤ fuel → canonical j = true →
      skipWs cs = renderJson lvl j ++ rest →
      (∀ c, rest.head? = some c → isDigitChar c = false) →
      parseVal fuel cs = some (j, rest)) ∧
    (∀ x xs acc lvl lvl2 cs rest, itemsFuel (x :: xs) ≤ fuel →
      canonicalList (x :: xs) = true →
      skipWs cs = renderJson lvl x ++ (renderArrTail lvl xs ++
        '\n' :: (indentChars lvl2 ++ ']' :: rest)) →
      parseItems fuel cs acc = some (.arr (acc ++ x :: xs), rest)) ∧
    (∀ k v fs acc lvl lvl2 rest, fieldsFuel ((k, v) :: fs) ≤ fuel →
      canonicalFields ((k, v) :: fs) = true →
      keysDistinct (acc.map Prod.fst ++ k :: fs.map Prod.fst) = true →
      parseFields fuel
        (renderField lvl (k, v) ++ (renderObjTail lvl fs ++
          '\n' :: (indentChars lvl2 ++ '}' :: rest))) acc
        = some (.obj (acc ++ (k, v) :: fs), rest)) := by
  intro fuel
  induction fuel with
  | zero =>
      refine ⟨?_, ?_, ?_⟩
      · intro j _ _ _ hf _ _ _
        exact absurd hf (by have := jsonFuel_pos j; omega)
      · intro x xs _ _ _ _ _ hf _ _
        exact absurd hf (by unfold itemsFuel; have := jsonFuel_pos x; omega)
      · intro k v fs _ _ _ _ hf _ _
        exact absurd hf (by unfold fieldsFuel; have := jsonFuel_pos v; omega)
  | succ fuel ih =>
      obtain ⟨ihA, ihB, ihC⟩ := ih
      refine ⟨?_, ?_, ?_⟩
      · -- parseVal parses any rendered canonical value back
        intro j lvl cs rest hf hcan hcs hrest
        cases j with
        | null =>
            have hr : renderJson lvl Json.null = 'n' :: ['u', 'l', 'l'] := by
              unfold renderJson; rfl
            rw [hr, List.cons_append] at hcs
            rw [parseVal_succ fuel cs _ _ hcs]
            simp [parseValBody]
        | bool b =>
            cases b with
            | true =>
                have hr : renderJson lvl (Json.bool true)
                    = 't' :: ['r', 'u', 'e'] := by
                  unfold renderJson; rfl
                rw [hr, List.cons_append] at hcs
                rw [parseVal_succ fuel cs _ _ hcs]
                simp [parseValBody]
            | false =>
                have hr : renderJson lvl (Json.bool false)
                    = 'f' :: ['a', 'l', 's', 'e'] := by
                  unfold renderJson; rfl
                rw [hr, List.cons_append] at hcs
                rw [parseVal_succ fuel cs _ _ hcs]
                simp [parseValBody]
        | num n =>
            by_cases hn : n < 0
            · have hr : renderJson lvl (Json.num n)
                  = '-' :: natChars n.natAbs := by
                unfold renderJson intChars
                rw [if_pos hn]
              rw [hr, List.cons_append] at hcs
              rw [parseVal_succ fuel cs _ _ hcs]
              unfold parseValBody
              rw [if_neg (show ¬('-' : Char) = '{' by decide),
                if_neg (show ¬('-' : Char) = '[' by decide),
                if_neg (show ¬('-' : Char) = '"' by decide),
                if_neg (show ¬('-' : Char) = 'n' by decide),
                if_neg (show ¬('-' : Char) = 't' by decide),
                if_neg (show ¬('-' : Char) = 'f' by decide),
                if_pos (show ('-' : Char) = '-' from rfl)]
              rw [parseNatNum_natChars _ _ hrest]
              have hne : -((n.natAbs : Nat) : Int) = n := by omega
              simp only [Option.map_some']
              rw [hne]
            · cases hnc : natChars n.toNat with
              | nil => exact absurd hnc (natChars_ne_nil _)
              | cons d ds =>
                  have hd : isDigitChar d = true :=
                    natChars_all_digits _ d (by rw [hnc]; simp)
                  have hr : renderJson lvl (Json.num n) = d :: ds := by
                    unfold renderJson intChars
                    rw [if_neg hn, hnc]
                  rw [hr, List.cons_append] at hcs
                  rw [parseVal_succ fuel cs _ _ hcs]
                  unfold parseValBody
                  rw [if_neg (digit_ne_of_toNat '{' hd (by right; decide)),
                    if_neg (digit_ne_of_toNat '[' hd (by right; decide)),
                    if_neg (digit_ne_of_toNat '"' hd (by left; decide)),
                    if_neg (digit_ne_of_toNat 'n' hd (by right; decide)),
                    if_neg (digit_ne_of_toNat 't' hd (by right; decide)),
                    if_neg (digit_ne_of_toNat 'f' hd (by right; decide)),
                    if_neg (digit_ne_of_toNat '-' hd (by left; decide))]
                  rw [← List.cons_append, ← hnc,
                    parseNatNum_natChars _ _ hrest]
                  have hpos : ((n.toNat : Nat) : Int) = n := by omega
                  simp only [Option.map_some']
                  rw [hpos]
        | str s =>
            have hr : renderJson lvl (Json.str s) =
                '"' :: ((s.toList.map escChar).flatten ++ ['"']) := by
              unfold renderJson renderString
              rfl
            rw [hr, List.cons_append] at hcs
            rw [parseVal_succ fuel cs _ _ hcs]
            unfold parseValBody
            rw [if_neg (show ¬('"' : Char) = '{' by decide),
              if_neg (show ¬('"' : Char) = '[' by decide),
              if_pos (show ('"' : Char) = '"' from rfl)]
            rw [List.append_assoc, List.singleton_append,
              parseStrChars_escaped]
            simp [string_mk_toList]
        | arr xs =>
            cases xs with
            | nil =>
                have hr : renderJson lvl (Json.arr []) = '[' :: [']'] := by
                  unfold renderJson; rfl
                rw [hr, List.cons_append] at hcs
                rw [parseVal_succ fuel cs _ _ hcs]
                unfold parseValBody
                rw [if_neg (show ¬('[' : Char) = '{' by decide),
                  if_pos (show ('[' : Char) = '[' from rfl)]
                rw [List.singleton_append,
                  skipWs_cons_of_not_ws (by decide)]
                simp
            | cons x xs =>
                have hr : renderJson lvl (Json.arr (x :: xs)) =
                    '[' :: '\n' :: (indentChars (lvl + 1) ++
                      (renderJson (lvl + 1) x ++
                        (renderArrTail (lvl + 1) xs ++
                          '\n' :: (indentChars lvl ++ [']'])))) := by
                  conv_lhs => unfold renderJson
                  simp [List.append_assoc]
                rw [hr] at hcs
                simp only [List.cons_append, List.append_assoc,
                  List.singleton_append] at hcs
                rw [parseVal_succ fuel cs _ _ hcs]
                unfold parseValBody
                rw [if_neg (show ¬('[' : Char) = '{' by decide),
                  if_pos (show ('[' : Char) = '[' from rfl)]
                rw [skipWs_newline_indent, skipWs_render]
                obtain ⟨ch, cs2, hrx, hws, hbr, hbr2⟩ :=
                  renderJson_head (lvl + 1) x
                rw [hrx, List.cons_append]
                simp only [if_neg hbr]
                rw [← List.cons_append, ← hrx]
                unfold jsonFuel at hf
                have hfuel : itemsFuel (x :: xs) ≤ fuel := by omega
                have hcl : canonicalList (x :: xs) = true := by
                  unfold canonical at hcan
                  exact hcan
                have := ihB x xs [] (lvl + 1) lvl
                  (renderJson (lvl + 1) x ++ (renderArrTail (lvl + 1) xs ++
                    '\n' :: (indentChars lvl ++ ']' :: rest))) rest hfuel hcl
                  (skipWs_render _ _ _)
                simpa using this
        | obj fs =>
            cases fs with
            | nil =>
                have hr : renderJson lvl (Json.obj []) = '{' :: ['}'] := by
                  unfold renderJson; rfl
                rw [hr, List.cons_append] at hcs
                rw [parseVal_succ fuel cs _ _ hcs]
                unfold parseValBody
                rw [if_pos (show ('{' : Char) = '{' from rfl)]
                rw [List.singleton_append,
                  skipWs_cons_of_not_ws (by decide)]
                simp
            | cons f fs =>
                obtain ⟨k, v⟩ := f
                have hr : renderJson lvl (Json.obj ((k, v) :: fs)) =
                    '{' :: '\n' :: (indentChars (lvl + 1) ++
                      (renderField (lvl + 1) (k, v) ++
                        (renderObjTail (lvl + 1) fs ++
                          '\n' :: (indentChars lvl ++ ['}'])))) := by
                  conv_lhs => unfold renderJson
                  simp [List.append_assoc]
                rw [hr] at hcs
                simp only [List.cons_append, List.append_assoc,
                  List.singleton_append] at hcs
                rw [parseVal_succ fuel cs _ _ hcs]
                unfold parseValBody
                rw [if_pos (show ('{' : Char) = '{' from rfl)]
                rw [skipWs_newline_indent]
                have hfhead := renderField_eq (lvl + 1) k v
                rw [hfhead, List.cons_append,
                  skipWs_cons_of_not_ws (by decide)]
                simp only [if_neg (show ¬('"' : Char) = '}' by decide)]
                rw [← List.cons_append, ← hfhead]
                unfold jsonFuel at hf
                have hfuel : fieldsFuel ((k, v) :: fs) ≤ fuel := by omega
                unfold canonical at hcan
                rw [Bool.and_eq_true] at hcan
                have := ihC k v fs [] (lvl + 1) lvl rest hfuel hcan.2
                  (by simpa using hcan.1)
                simpa using this
      · -- parseItems consumes the rendered items
        intro x xs acc lvl lvl2 cs rest hf hcanl hcs
        unfold itemsFuel at hf
        unfold canonicalList at hcanl
        rw [Bool.and_eq_true] at hcanl
        have hfx : jsonFuel x ≤ fuel := by omega
        have hT : ∀ c, (renderArrTail lvl xs ++
            '\n' :: (indentChars lvl2 ++ ']' :: rest)).head? = some c →
            isDigitChar c = false := by
          cases xs with
          | nil =>
              unfold renderArrTail
              intro c hc
              simp at hc
              subst hc
              decide
          | cons y ys =>
              unfold renderArrTail
              intro c hc
              simp at hc
              subst hc
              decide
        rw [parseItems_succ fuel cs acc x _
          (ihA x lvl cs _ hfx hcanl.1 hcs hT)]
        cases xs with
        | nil =>
            have hskip : skipWs (renderArrTail lvl ([] : List Json) ++
                '\n' :: (indentChars lvl2 ++ ']' :: rest)) = ']' :: rest := by
              unfold renderArrTail
              rw [List.nil_append, skipWs_newline_indent,
                skipWs_cons_of_not_ws (by decide)]
            rw [parseItemsStep_cons _ _ _ _ _ _ hskip,
              if_neg (show ¬(']' : Char) = ',' by decide),
              if_pos (show (']' : Char) = ']' from rfl)]
        | cons y ys =>
            have hskip : skipWs (renderArrTail lvl (y :: ys) ++
                '\n' :: (indentChars lvl2 ++ ']' :: rest)) =
                ',' :: ('\n' :: (indentChars lvl ++ (renderJson lvl y ++
                  (renderArrTail lvl ys ++
                    '\n' :: (indentChars lvl2 ++ ']' :: rest))))) := by
              rw [renderArrTail_cons]
              simp only [List.cons_append, List.append_assoc]
              rw [skipWs_cons_of_not_ws (by decide)]
            rw [parseItemsStep_cons _ _ _ _ _ _ hskip,
              if_pos (show (',' : Char) = ',' from rfl)]
            have hfuel2 : itemsFuel (y :: ys) ≤ fuel := by omega
            have := ihB y ys (acc ++ [x]) lvl lvl2
              ('\n' :: (indentChars lvl ++ (renderJson lvl y ++
                (renderArrTail lvl ys ++
                  '\n' :: (indentChars lvl2 ++ ']' :: rest))))) rest hfuel2
              hcanl.2 (by rw [skipWs_newline_indent, skipWs_render])
            rw [this]
            simp
      · -- parseFields consumes the rendered fields
        intro k v fs acc lvl lvl2 rest hf hcanf hkd
        unfold fieldsFuel at hf
        unfold canonicalFields at hcanf
        rw [Bool.and_eq_true] at hcanf
        have hf2 : 1 + jsonFuel v + fieldsFuel fs ≤ fuel + 1 := hf
        have hfv : jsonFuel v ≤ fuel := by omega
        have hkacc : k ∉ acc.map Prod.fst := keysDistinct_append_not_mem hkd
        have hT2 : ∀ c, (renderObjTail lvl fs ++
            '\n' :: (indentChars lvl2 ++ '}' :: rest)).head? = some c →
            isDigitChar c = false := by
          cases fs with
          | nil =>
              unfold renderObjTail
              intro c hc
              simp at hc
              subst hc
              decide
          | cons g gs =>
              unfold renderObjTail
              intro c hc
              simp at hc
              subst hc
              decide
        rw [renderField_eq]
        simp only [List.cons_append, List.nil_append, List.append_assoc,
          List.singleton_append]
        rw [parseFields_succ]
        have hstr := parseStrChars_escaped k.toList
          (':' :: ' ' :: (renderJson lvl v ++ (renderObjTail lvl fs ++
            '\n' :: (indentChars lvl2 ++ '}' :: rest))))
        have h2 : skipWs (':' :: ' ' :: (renderJson lvl v ++
            (renderObjTail lvl fs ++
              '\n' :: (indentChars lvl2 ++ '}' :: rest)))) =
            ':' :: (' ' :: (renderJson lvl v ++ (renderObjTail lvl fs ++
              '\n' :: (indentChars lvl2 ++ '}' :: rest)))) :=
          skipWs_cons_of_not_ws (by decide) _
        have hval := ihA v lvl
          (' ' :: (renderJson lvl v ++ (renderObjTail lvl fs ++
            '\n' :: (indentChars lvl2 ++ '}' :: rest))))
          (renderObjTail lvl fs ++ '\n' :: (indentChars lvl2 ++ '}' :: rest))
          hfv hcanf.1
          (by rw [skipWs_cons_of_ws (by decide), skipWs_render]) hT2
        cases fs with
        | nil =>
            have h3 : skipWs (renderObjTail lvl
                ([] : List (String × Json)) ++
                '\n' :: (indentChars lvl2 ++ '}' :: rest)) = '}' :: rest := by
              unfold renderObjTail
              rw [List.nil_append, skipWs_newline_indent,
                skipWs_cons_of_not_ws (by decide)]
            rw [parseFieldsBody_run _ _ _ _ _ _ _ _ _ _ _ hstr h2 hval h3,
              if_neg (show ¬('}' : Char) = ',' by decide),
              if_pos (show ('}' : Char) = '}' from rfl)]
            rw [string_mk_toList, assocInsert_append v hkacc]
        | cons g gs =>
            obtain ⟨k2, v2⟩ := g
            have h3 : skipWs (renderObjTail lvl ((k2, v2) :: gs) ++
                '\n' :: (indentChars lvl2 ++ '}' :: rest)) =
                ',' :: ('\n' :: (indentChars lvl ++
                  (renderField lvl (k2, v2) ++ (renderObjTail lvl gs ++
                    '\n' :: (indentChars lvl2 ++ '}' :: rest))))) := by
              rw [renderObjTail_cons]
              simp only [List.cons_append, List.append_assoc]
              rw [skipWs_cons_of_not_ws (by decide)]
            rw [parseFieldsBody_run _ _ _ _ _ _ _ _ _ _ _ hstr h2 hval h3,
              if_pos (show (',' : Char) = ',' from rfl)]
            rw [string_mk_toList, assocInsert_append v hkacc]
            have hskip2 : skipWs ('\n' :: (indentChars lvl ++
                (renderField lvl (k2, v2) ++ (renderObjTail lvl gs ++
                  '\n' :: (indentChars lvl2 ++ '}' :: rest))))) =
                renderField lvl (k2, v2) ++ (renderObjTail lvl gs ++
                  '\n' :: (indentChars lvl2 ++ '}' :: rest)) := by
              rw [skipWs_newline_indent, renderField_eq, List.cons_append,
                skipWs_cons_of_not_ws (by decide), ← List.cons_append,
                ← renderField_eq]
            rw [hskip2]
            have hfuel2 : fieldsFuel ((k2, v2) :: gs) ≤ fuel := by omega
            have hkd2 : keysDistinct ((acc ++ [(k, v)]).map Prod.fst ++
                k2 :: gs.map Prod.fst) = true := by
              simpa [List.map_append, List.append_assoc] using hkd
            rw [ihC k2 v2 gs (acc ++ [(k, v)]) lvl lvl2 rest hfuel2
              hcanf.2 hkd2]
            simp


/-! ## Fuel bounds: the input length dominates the needed fuel -/

mutual

theorem jsonFuel_le_render : ∀ (j : Json) (lvl : Nat),
    jsonFuel j ≤ (renderJson lvl j).length
  | .null, lvl => by
      unfold jsonFuel
      have : renderJson lvl .null = ['n', 'u', 'l', 'l'] := by
        unfold renderJson; rfl
      simp [this]
  | .bool true, lvl => by
      unfold jsonFuel
      have : renderJson lvl (.bool true) = ['t', 'r', 'u', 'e'] := by
        unfold renderJson; rfl
      simp [this]
  | .bool false, lvl => by
      unfold jsonFuel
      have : renderJson lvl (.bool false) = ['f', 'a', 'l', 's', 'e'] := by
        unfold renderJson; rfl
      simp [this]
  | .num n, lvl => by
      unfold jsonFuel
      have hr : renderJson lvl (.num n) = intChars n := by
        unfold renderJson; rfl
      rw [hr]
      unfold intChars
      split
      · simp
      · exact List.length_pos.mpr (natChars_ne_nil n.toNat)
  | .str s, lvl => by
      unfold jsonFuel
      have hr : renderJson lvl (.str s) =
          '"' :: ((s.toList.map escChar).flatten ++ ['"']) := by
        unfold renderJson renderString; rfl
      rw [hr]
      simp
  | .arr [], lvl => by
      unfold jsonFuel itemsFuel
      have : renderJson lvl (.arr []) = ['[', ']'] := by
        unfold renderJson; rfl
      simp [this]
  | .arr (x :: xs), lvl => by
      have h1 := jsonFuel_le_render x (lvl + 1)
      have h2 := itemsFuel_le_render xs (lvl + 1)
      rw [jsonFuel_arr, itemsFuel_cons, renderJson_arr_cons]
      simp only [List.length_cons, List.length_append]
      omega
  | .obj [], lvl => by
      unfold jsonFuel fieldsFuel
      have : renderJson lvl (.obj []) = ['{', '}'] := by
        unfold renderJson; rfl
      simp [this]
  | .obj (f :: fs), lvl => by
      have h1 := jsonFuel_le_render f.2 (lvl + 1)
      have h2 := fieldsFuel_le_render fs (lvl + 1)
      rw [jsonFuel_obj, fieldsFuel_cons, renderJson_obj_cons]
      have h3 : jsonFuel f.2 ≤ (renderField (lvl + 1) f).length := by
        obtain ⟨k, v⟩ := f
        rw [renderField_eq]
        simp only [List.length_cons, List.length_append]
        simp only [List.length_map, List.length_flatten] at h1 ⊢
        omega
      simp only [List.length_cons, List.length_append]
      omega

theorem itemsFuel_le_render : ∀ (xs : List Json) (lvl : Nat),
    itemsFuel xs ≤ (renderArrTail lvl xs).length
  | [], lvl => by
      unfold itemsFuel renderArrTail
      simp
  | y :: ys, lvl => by
      have h1 := jsonFuel_le_render y lvl
      have h2 := itemsFuel_le_render ys lvl
      rw [itemsFuel_cons, renderArrTail_cons]
      simp only [List.length_cons, List.length_append]
      omega

theorem fieldsFuel_le_render : ∀ (fs : List (String × Json)) (lvl : Nat),
    fieldsFuel fs ≤ (renderObjTail lvl fs).length
  | [], lvl => by
      unfold fieldsFuel renderObjTail
      simp
  | g :: gs, lvl => by
      have h1 := jsonFuel_le_render g.2 lvl
      have h2 := fieldsFuel_le_render gs lvl
      rw [fieldsFuel_cons, renderObjTail_cons]
      have h3 : jsonFuel g.2 ≤ (renderField lvl g).length := by
        obtain ⟨k, v⟩ := g
        rw [renderField_eq]
        simp only [List.length_cons, List.length_append]
        simp only [List.length_map, List.length_flatten] at h1 ⊢
        omega
      simp only [List.length_cons, List.length_append]
      omega

end

/-! ## The round-trip corollary: `json.loads` undoes `json.dumps` -/

theorem parseJsonChars_renderJson (j : Json) (hc : canonical j = true) :
    parseJsonChars (renderJson 0 j) = some j := by
  unfold parseJsonChars
  have hfuel : jsonFuel j ≤ (renderJson 0 j).length + 1 := by
    have := jsonFuel_le_render j 0
    omega
  have hsk : skipWs (renderJson 0 j) = renderJson 0 j ++ [] := by
    rw [List.append_nil]
    have := skipWs_render 0 j []
    rwa [List.append_nil] at this
  have hres := (parseRound ((renderJson 0 j).length + 1)).1 j 0
    (renderJson 0 j) [] hfuel hc hsk (by intro c hc'; simp at hc')
  rw [hres]
  simp [skipWs]

/-- The central round-trip: re-parsing the app's own serialization of a
canonical value recovers the value exactly. -/
theorem parseJson_pyJsonDumps (j : Json) (hc : canonical j = true) :
    parseJson (pyJsonDumps j) = some j := by
  unfold parseJson pyJsonDumps
  exact parseJsonChars_renderJson j hc


/-! ## UTF-8 round-trip -/

theorem char_toNat_valid (c : Char) :
    c.toNat < 0xd800 ∨ (0xdfff < c.toNat ∧ c.toNat < 0x110000) := c.valid

theorem utf8EncodeChar_ne_nil (c : Char) : utf8EncodeChar c ≠ [] := by
  unfold utf8EncodeChar
  dsimp only
  split
  · simp
  split
  · simp
  split <;> simp

theorem utf8DecodeOne_encodeChar (c : Char) (rest : List Nat) :
    utf8DecodeOne (utf8EncodeChar c ++ rest) = some (c, rest) := by
  have hv := char_toNat_valid c
  unfold utf8EncodeChar
  by_cases h1 : c.toNat < 0x80
  · rw [if_pos h1]
    simp only [List.cons_append, List.nil_append]
    conv_lhs => unfold utf8DecodeOne
    simp only []
    rw [if_pos h1, Char.ofNat_toNat]
  · rw [if_neg h1]
    by_cases h2 : c.toNat < 0x800
    · rw [if_pos h2]
      simp only [List.cons_append, List.nil_append]
      conv_lhs => unfold utf8DecodeOne
      simp only []
      have e1 : ¬(0xC0 + c.toNat / 0x40 < 0x80) := by omega
      have e2 : ¬(0xC0 + c.toNat / 0x40 < 0xC2) := by omega
      have e3 : 0xC0 + c.toNat / 0x40 < 0xE0 := by omega
      have e4 : utf8Cont (0x80 + c.toNat % 0x40) = true := by
        simp only [utf8Cont, Bool.and_eq_true, decide_eq_true_eq]
        omega
      have e5 : (0xC0 + c.toNat / 0x40 - 0xC0) * 0x40 +
          (0x80 + c.toNat % 0x40 - 0x80) = c.toNat := by omega
      simp only [if_neg e1, if_neg e2, if_pos e3, e4, if_true, e5,
        Char.ofNat_toNat]
    · rw [if_neg h2]
      by_cases h3 : c.toNat < 0x10000
      · rw [if_pos h3]
        simp only [List.cons_append, List.nil_append]
        conv_lhs => unfold utf8DecodeOne
        simp only []
        have e1 : ¬(0xE0 + c.toNat / 0x1000 < 0x80) := by omega
        have e2 : ¬(0xE0 + c.toNat / 0x1000 < 0xC2) := by omega
        have e3 : ¬(0xE0 + c.toNat / 0x1000 < 0xE0) := by omega
        have e4 : 0xE0 + c.toNat / 0x1000 < 0xF0 := by omega
        have e5 : (utf8Cont (0x80 + c.toNat / 0x40 % 0x40) &&
            utf8Cont (0x80 + c.toNat % 0x40)) = true := by
          simp only [utf8Cont, Bool.and_eq_true, decide_eq_true_eq]
          omega
        have e7 : (0xE0 + c.toNat / 0x1000 - 0xE0) * 0x1000 +
            (0x80 + c.toNat / 0x40 % 0x40 - 0x80) * 0x40 +
            (0x80 + c.toNat % 0x40 - 0x80) = c.toNat := by omega
        have e8 : (0x800 ≤ c.toNat && validScalar c.toNat) = true := by
          simp only [validScalar, Bool.and_eq_true, decide_eq_true_eq]
          omega
        simp only [if_neg e1, if_neg e2, if_neg e3, if_pos e4, e5, if_true,
          e7, e8, Char.ofNat_toNat]
      · rw [if_neg h3]
        simp only [List.cons_append, List.nil_append]
        conv_lhs => unfold utf8DecodeOne
        simp only []
        have e1 : ¬(0xF0 + c.toNat / 0x40000 < 0x80) := by omega
        have e2 : ¬(0xF0 + c.toNat / 0x40000 < 0xC2) := by omega
        have e3 : ¬(0xF0 + c.toNat / 0x40000 < 0xE0) := by omega
        have e4 : ¬(0xF0 + c.toNat / 0x40000 < 0xF0) := by omega
        have e5 : 0xF0 + c.toNat / 0x40000 < 0xF5 := by omega
        have e6 : (utf8Cont (0x80 + c.toNat / 0x1000 % 0x40) &&
            utf8Cont (0x80 + c.toNat / 0x40 % 0x40) &&
            utf8Cont (0x80 + c.toNat % 0x40)) = true := by
          simp only [utf8Cont, Bool.and_eq_true, decide_eq_true_eq]
          omega
        have e9 : (0xF0 + c.toNat / 0x40000 - 0xF0) * 0x40000 +
            (0x80 + c.toNat / 0x1000 % 0x40 - 0x80) * 0x1000 +
            (0x80 + c.toNat / 0x40 % 0x40 - 0x80) * 0x40 +
            (0x80 + c.toNat % 0x40 - 0x80) = c.toNat := by omega
        have e10 : (0x10000 ≤ c.toNat && decide (c.toNat < 0x110000))
            = true := by
          simp only [Bool.and_eq_true, decide_eq_true_eq]
          omega
        simp only [if_neg e1, if_neg e2, if_neg e3, if_neg e4, if_pos e5,
          e6, if_true, e9, e10, Char.ofNat_toNat]

theorem utf8DecodeLoop_encoded (l : List Char) (fuel : Nat)
    (hf : l.length ≤ fuel) :
    utf8DecodeLoop fuel ((l.map utf8EncodeChar).flatten) = some l := by
  induction l generalizing fuel with
  | nil =>
      cases fuel <;> rfl
  | cons c cs ih =>
      cases fuel with
      | zero => simp at hf
      | succ g =>
          simp only [List.map_cons, List.flatten_cons]
          obtain ⟨b0, br, henc⟩ : ∃ b0 br, utf8EncodeChar c = b0 :: br := by
            cases he : utf8EncodeChar c with
            | nil => exact absurd he (utf8EncodeChar_ne_nil c)
            | cons b0 br => exact ⟨b0, br, rfl⟩
          rw [henc, List.cons_append]
          conv_lhs => unfold utf8DecodeLoop
          rw [← List.cons_append, ← henc, utf8DecodeOne_encodeChar]
          simp only [List.length_cons] at hf
          simp only [ih g (by omega), Option.map_some']

theorem length_le_utf8_length (l : List Char) :
    l.length ≤ ((l.map utf8EncodeChar).flatten).length := by
  induction l with
  | nil => simp
  | cons c cs ih =>
      simp only [List.map_cons, List.flatten_cons, List.length_cons,
        List.length_append]
      have : 1 ≤ (utf8EncodeChar c).length :=
        List.length_pos.mpr (utf8EncodeChar_ne_nil c)
      omega

/-- Decoding inverts encoding: `json.load` sees exactly the text that
`str.encode("utf-8")` produced. -/
theorem utf8Decode_utf8Encode (s : String) :
    utf8Decode (utf8Encode s) = some s := by
  unfold utf8Decode utf8Encode
  rw [utf8DecodeLoop_encoded s.toList _ (length_le_utf8_length s.toList)]
  simp [string_mk_toList]


/-! ## Canonicity bookkeeping for the store operations -/

theorem canonical_null_eq : canonical .null = true := by
  unfold canonical
  rfl

theorem canonical_str_eq (s : String) : canonical (.str s) = true := by
  unfold canonical
  rfl

theorem canonical_arr_eq (xs : List Json) :
    canonical (.arr xs) = canonicalList xs := by
  conv_lhs => unfold canonical

theorem canonical_obj_eq (fs : List (String × Json)) :
    canonical (.obj fs) = (keysDistinct (fs.map Prod.fst) &&
      canonicalFields fs) := by
  conv_lhs => unfold canonical

theorem canonicalList_nil_eq : canonicalList [] = true := by
  unfold canonicalList
  rfl

theorem canonicalList_cons_eq (x : Json) (xs : List Json) :
    canonicalList (x :: xs) = (canonical x && canonicalList xs) := by
  conv_lhs => unfold canonicalList

theorem canonicalFields_nil_eq : canonicalFields [] = true := by
  unfold canonicalFields
  rfl

theorem canonicalFields_cons_eq (f : String × Json)
    (fs : List (String × Json)) :
    canonicalFields (f :: fs) = (canonical f.2 && canonicalFields fs) := by
  conv_lhs => unfold canonicalFields

theorem canonicalList_map_str (l : List String) :
    canonicalList (l.map Json.str) = true := by
  induction l with
  | nil => exact canonicalList_nil_eq
  | cons a l ih =>
      simp [canonicalList_cons_eq, canonical_str_eq, ih]

theorem canonicalFields_append (a b : List (String × Json)) :
    canonicalFields (a ++ b) = (canonicalFields a && canonicalFields b) := by
  induction a with
  | nil => simp [canonicalFields_nil_eq]
  | cons f fs ih =>
      simp [canonicalFields_cons_eq, ih, Bool.and_assoc]

theorem keysDistinct_append_singleton {K : List String} {k : String}
    (hK : keysDistinct K = true) (hk : k ∉ K) :
    keysDistinct (K ++ [k]) = true := by
  rw [keysDistinct_eq_true_iff] at hK ⊢
  rw [List.nodup_append]
  refine ⟨hK, by simp, ?_⟩
  intro a ha hb
  simp only [List.mem_singleton] at hb
  exact hk (hb ▸ ha)

/-- The record built by `add_recipe` is canonical whenever its image value
is. -/
theorem canonical_recipeVal (rid title steps created : String)
    (ing tags : List String) (img : Json) (himg : canonical img = true) :
    canonical (Json.obj [("id", .str rid), ("title", .str title),
      ("ingredients", .arr (ing.map .str)), ("steps", .str steps),
      ("tags", .arr (tags.map .str)), ("image", img),
      ("created_at", .str created)]) = true := by
  rw [canonical_obj_eq]
  refine (Bool.and_eq_true _ _).mpr ⟨?_, ?_⟩
  · show keysDistinct ["id", "title", "ingredients", "steps", "tags",
      "image", "created_at"] = true
    decide
  simp [canonicalFields_cons_eq, canonicalFields_nil_eq, canonical_str_eq,
    canonical_arr_eq, canonicalList_map_str, himg]

/-- Re-loading right after a save returns exactly the saved value. -/
theorem load_recipes_save (j : Json) (fs : FS) (hc : canonical j = true) :
    load_recipes (save_recipes j fs) = j := by
  unfold load_recipes save_recipes
  simp [parseJson_pyJsonDumps j hc]

/-! ## The substring test -/

theorem subList_iff (needle hay : List Char) :
    subList needle hay = true ↔ ∃ pre post, hay = pre ++ needle ++ post := by
  induction hay with
  | nil =>
      unfold subList
      simp only [List.isEmpty_iff]
      constructor
      · rintro rfl
        exact ⟨[], [], rfl⟩
      · rintro ⟨pre, post, h⟩
        cases pre <;> cases needle <;> simp at h ⊢
  | cons c t ih =>
      unfold subList
      rw [Bool.or_eq_true, ih]
      constructor
      · rintro (hpre | ⟨pre, post, rfl⟩)
        · obtain ⟨post, hpost⟩ := List.isPrefixOf_iff_prefix.mp hpre
          exact ⟨[], post, by simp [hpost]⟩
        · exact ⟨c :: pre, post, by simp⟩
      · rintro ⟨pre, post, h⟩
        cases pre with
        | nil =>
            left
            exact List.isPrefixOf_iff_prefix.mpr ⟨post, by simpa using h.symm⟩
        | cons p ps =>
            right
            simp only [List.cons_append, List.cons.injEq] at h
            exact ⟨ps, post, h.2⟩

theorem pyContains_iff (hay needle : String) :
    pyContains hay needle = true ↔
      ∃ pre post, hay.toList = pre ++ needle.toList ++ post := by
  unfold pyContains
  exact subList_iff _ _


/-! ## Association-list pop and further bookkeeping -/

theorem string_toList_append (a b : String) :
    (a ++ b).toList = a.toList ++ b.toList := by
  cases a; cases b; rfl

theorem canonical_obj_nil : canonical (.obj []) = true := by
  rw [canonical_obj_eq, canonicalFields_nil_eq]
  rfl

theorem assocPop_fst (l : List (String × Json)) (k : String) :
    (assocPop l k).1 = assocLookup l k := by
  induction l with
  | nil => rfl
  | cons p l ih =>
      unfold assocPop assocLookup
      by_cases hp : p.1 = k
      · simp [hp]
      · simp only [hp, if_false, ite_false, if_neg hp]
        exact ih

theorem assocPop_none (l : List (String × Json)) (k : String)
    (h : assocLookup l k = none) : (assocPop l k).2 = l := by
  induction l with
  | nil => rfl
  | cons p l ih =>
      unfold assocLookup at h
      unfold assocPop
      by_cases hp : p.1 = k
      · rw [if_pos hp] at h
        cases h
      · rw [if_neg hp] at h
        simp only [if_neg hp]
        rw [ih h]

theorem assocPop_keys_sublist (l : List (String × Json)) (k : String) :
    ((assocPop l k).2.map Prod.fst).Sublist (l.map Prod.fst) := by
  induction l with
  | nil => simp [assocPop]
  | cons p l ih =>
      unfold assocPop
      by_cases hp : p.1 = k
      · simp only [if_pos hp]
        exact (List.sublist_cons_self _ _)
      · simp only [if_neg hp, List.map_cons]
        exact ih.cons₂ _

theorem canonicalFields_pop (l : List (String × Json)) (k : String)
    (h : canonicalFields l = true) :
    canonicalFields (assocPop l k).2 = true := by
  induction l with
  | nil => simpa [assocPop] using h
  | cons p l ih =>
      rw [canonicalFields_cons_eq, Bool.and_eq_true] at h
      unfold assocPop
      by_cases hp : p.1 = k
      · simp only [if_pos hp]
        exact h.2
      · simp only [if_neg hp]
        rw [canonicalFields_cons_eq, Bool.and_eq_true]
        exact ⟨h.1, ih h.2⟩

theorem canonical_assocPop (d : List (String × Json)) (k : String)
    (h : canonical (.obj d) = true) :
    canonical (.obj (assocPop d k).2) = true := by
  rw [canonical_obj_eq, Bool.and_eq_true] at h ⊢
  refine ⟨?_, canonicalFields_pop d k h.2⟩
  rw [keysDistinct_eq_true_iff] at h ⊢
  exact h.1.sublist (assocPop_keys_sublist d k)

/-! ## The path suffix contains no slash -/

theorem splitOnChar_no_sep (sep : Char) (cs : List Char) :
    ∀ p ∈ splitOnChar sep cs, sep ∉ p := by
  induction cs with
  | nil =>
      intro p hp
      simp [splitOnChar] at hp
      simp [hp]
  | cons c cs ih =>
      intro p hp
      unfold splitOnChar at hp
      by_cases hc : c = sep
      · rw [if_pos hc] at hp
        rcases List.mem_cons.mp hp with rfl | hp
        · simp
        · exact ih p hp
      · rw [if_neg hc] at hp
        cases hr : splitOnChar sep cs with
        | nil => simp [hr] at hp; simp [hp, hc, Ne.symm]
        | cons q qs =>
            rw [hr] at hp
            rcases List.mem_cons.mp hp with rfl | hp
            · intro hmem
              rcases List.mem_cons.mp hmem with rfl | hmem
              · exact hc rfl
              · exact ih q (by rw [hr]; simp) hmem
            · exact ih p (by rw [hr]; simp [hp])

theorem pathNameChars_no_slash (p : List Char) :
    '/' ∉ pathNameChars p := by
  unfold pathNameChars
  cases hl : (splitOnChar '/' p).filter (fun part => !part.isEmpty) with
  | nil => simp
  | cons q qs =>
      have hmem : (q :: qs).getLastD [] ∈ q :: qs := by
        rw [List.getLastD_eq_getLast?]
        rcases List.getLast?_eq_getLast (q :: qs) (by simp) with h
        rw [h]
        exact List.getLast_mem _
      have : (q :: qs).getLastD [] ∈ (splitOnChar '/' p).filter
          (fun part => !part.isEmpty) := by rw [hl]; exact hmem
      have hin := List.mem_filter.mp this |>.1
      exact fun hc => splitOnChar_no_sep '/' p _ hin hc

theorem pathSuffixChars_no_slash (p : List Char) :
    ∀ c ∈ pathSuffixChars p, c ≠ '/' := by
  intro c hc
  unfold pathSuffixChars at hc
  dsimp only at hc
  split at hc
  · cases hc
  · split at hc
    · cases hc
    · split at hc
      · cases hc
      · rcases List.mem_cons.mp hc with rfl | hmem
        · decide
        · intro heq
          subst heq
          have h1 := List.mem_reverse.mp hmem
          have h2 : '/' ∈ (pathNameChars p).reverse :=
            (List.take_sublist _ _).mem h1
          exact pathNameChars_no_slash p (List.mem_reverse.mp h2)

theorem pathSuffix_no_slash (pn : String) :
    ∀ c ∈ (pathSuffix pn).toList, c ≠ '/' := by
  intro c hc
  exact pathSuffixChars_no_slash pn.toList c hc


/-! ## The documented Recipe shape and the search test -/

theorem strFieldShape {fs : List (String × Json)} {k : String}
    (h : (match assocLookup fs k with
      | some (.str _) => true | _ => false) = true) :
    ∃ s, assocLookup fs k = some (.str s) := by
  cases he : assocLookup fs k with
  | none => simp [he] at h
  | some v =>
      cases v with
      | str s => exact ⟨s, rfl⟩
      | null => simp [he] at h
      | bool b => simp [he] at h
      | num n => simp [he] at h
      | arr xs => simp [he] at h
      | obj ofs => simp [he] at h

theorem arrStrFieldShape {fs : List (String × Json)} {k : String}
    {p : Json → Bool}
    (h : (match assocLookup fs k with
      | some (.arr xs) => xs.all p | _ => false) = true) :
    ∃ xs, assocLookup fs k = some (.arr xs) ∧ xs.all p = true := by
  cases he : assocLookup fs k with
  | none => simp [he] at h
  | some v =>
      cases v with
      | arr xs =>
          rw [he] at h
          exact ⟨xs, rfl, h⟩
      | null => simp [he] at h
      | bool b => simp [he] at h
      | num n => simp [he] at h
      | str s => simp [he] at h
      | obj ofs => simp [he] at h

theorem imageFieldShape {fs : List (String × Json)}
    (h : (match assocLookup fs "image" with
      | some (.str _) => true | some .null => true | _ => false) = true) :
    assocLookup fs "image" = some .null ∨
      ∃ fn, assocLookup fs "image" = some (.str fn) := by
  cases he : assocLookup fs "image" with
  | none => simp [he] at h
  | some v =>
      cases v with
      | str s => exact Or.inr ⟨s, rfl⟩
      | null => exact Or.inl rfl
      | bool b => simp [he] at h
      | num n => simp [he] at h
      | arr xs => simp [he] at h
      | obj ofs => simp [he] at h

theorem recipeShape_obj {r : Json} (h : recipeShape r = true) :
    ∃ rf, r = .obj rf ∧
      (∃ s, assocLookup rf "title" = some (.str s)) ∧
      (∃ xs, assocLookup rf "ingredients" = some (.arr xs) ∧
        xs.all (fun x => match x with | .str _ => true | _ => false) = true) ∧
      (∃ xs, assocLookup rf "tags" = some (.arr xs) ∧
        xs.all (fun x => match x with | .str _ => true | _ => false) = true) ∧
      (assocLookup rf "image" = some .null ∨
        ∃ fn, assocLookup rf "image" = some (.str fn)) := by
  cases r with
  | obj rf =>
      unfold recipeShape at h
      rw [Bool.and_eq_true, Bool.and_eq_true, Bool.and_eq_true,
        Bool.and_eq_true, Bool.and_eq_true, Bool.and_eq_true] at h
      obtain ⟨⟨⟨⟨⟨⟨_, h2⟩, h3⟩, _⟩, h5⟩, h6⟩, _⟩ := h
      exact ⟨rf, rfl, strFieldShape h2, arrStrFieldShape h3,
        arrStrFieldShape h5, imageFieldShape h6⟩
  | null => simp [recipeShape] at h
  | bool b => simp [recipeShape] at h
  | num n => simp [recipeShape] at h
  | str s => simp [recipeShape] at h
  | arr xs => simp [recipeShape] at h

theorem mapM_of_all_str (xs : List Json)
    (h : xs.all (fun x => match x with | .str _ => true | _ => false) = true) :
    xs.mapM (fun x => match x with | .str s => some s | _ => none) =
      some (xs.filterMap
        (fun x => match x with | .str s => some s | _ => none)) := by
  induction xs with
  | nil => rfl
  | cons x xs ih =>
      rw [List.all_cons, Bool.and_eq_true] at h
      cases x with
      | str s =>
          rw [List.mapM_cons, ih h.2]
          simp [List.filterMap_cons]
      | null => simp at h
      | bool b => simp at h
      | num n => simp at h
      | arr ys => simp at h
      | obj ofs => simp at h

theorem recipeMatches_of_shape (q : String) (r : Json)
    (h : recipeShape r = true) :
    recipeMatches q r = some (pyContains (pyLower (recipeTitle r)) q ||
      (recipeStrList r "tags").any (fun t => pyContains (pyLower t) q) ||
      (recipeStrList r "ingredients").any
        (fun t => pyContains (pyLower t) q)) := by
  obtain ⟨rf, rfl, ⟨t, ht⟩, ⟨ixs, hi, hia⟩, ⟨txs, htg, htga⟩, _⟩ :=
    recipeShape_obj h
  unfold recipeMatches getStrField getStrListField recipeTitle recipeStrList
  simp only [ht, htg, hi, mapM_of_all_str _ htga, mapM_of_all_str _ hia,
    Option.bind_some]
  rfl

theorem filterMatches_spec (ql : String) (rs : List Json)
    (hshape : ∀ r ∈ rs, recipeShape r = true) :
    ∃ res, filterMatches ql rs = some res ∧
      ∀ r, r ∈ res ↔ r ∈ rs ∧
        recipeMatches ql r = some true := by
  induction rs with
  | nil => exact ⟨[], rfl, by simp⟩
  | cons x rs ih =>
      obtain ⟨res, hres, hmem⟩ := ih (fun r hr => hshape r (List.mem_cons_of_mem x hr))
      have hx := recipeMatches_of_shape ql x (hshape x (List.mem_cons_self x rs))
      refine ⟨if (pyContains (pyLower (recipeTitle x)) ql ||
          (recipeStrList x "tags").any (fun t => pyContains (pyLower t) ql) ||
          (recipeStrList x "ingredients").any
            (fun t => pyContains (pyLower t) ql)) then x :: res else res, ?_, ?_⟩
      · unfold filterMatches
        rw [hx, hres]
      · intro r
        by_cases hb : (pyContains (pyLower (recipeTitle x)) ql ||
            (recipeStrList x "tags").any (fun t => pyContains (pyLower t) ql) ||
            (recipeStrList x "ingredients").any
              (fun t => pyContains (pyLower t) ql)) = true
        · rw [if_pos hb]
          constructor
          · intro hr
            rcases List.mem_cons.mp hr with rfl | hr
            · exact ⟨List.mem_cons_self _ _, by rw [hx, hb]⟩
            · obtain ⟨h1, h2⟩ := (hmem r).mp hr
              exact ⟨List.mem_cons_of_mem x h1, h2⟩
          · intro ⟨h1, h2⟩
            rcases List.mem_cons.mp h1 with rfl | h1
            · exact List.mem_cons_self _ _
            · exact List.mem_cons_of_mem x ((hmem r).mpr ⟨h1, h2⟩)
        · rw [if_neg hb]
          constructor
          · intro hr
            obtain ⟨h1, h2⟩ := (hmem r).mp hr
            exact ⟨List.mem_cons_of_mem x h1, h2⟩
          · intro ⟨h1, h2⟩
            rcases List.mem_cons.mp h1 with rfl | h1
            · rw [hx] at h2
              exact absurd (Option.some.inj h2) hb
            · exact (hmem r).mpr ⟨h1, h2⟩

theorem recipeMatches_iff (q : String) (r : Json) (h : recipeShape r = true) :
    recipeMatches (pyLower q) r = some true ↔ MatchesQuery q r := by
  rw [recipeMatches_of_shape (pyLower q) r h]
  unfold MatchesQuery
  constructor
  · intro he
    have hb : (pyContains (pyLower (recipeTitle r)) (pyLower q) ||
        (recipeStrList r "tags").any
          (fun t => pyContains (pyLower t) (pyLower q)) ||
        (recipeStrList r "ingredients").any
          (fun t => pyContains (pyLower t) (pyLower q))) = true :=
      Option.some.inj he
    rw [Bool.or_eq_true, Bool.or_eq_true] at hb
    rcases hb with (hb | hb) | hb
    · exact Or.inl ((pyContains_iff _ _).mp hb)
    · obtain ⟨t, ht, hc⟩ := List.any_eq_true.mp hb
      exact Or.inr (Or.inl ⟨t, ht, (pyContains_iff _ _).mp hc⟩)
    · obtain ⟨t, ht, hc⟩ := List.any_eq_true.mp hb
      exact Or.inr (Or.inr ⟨t, ht, (pyContains_iff _ _).mp hc⟩)
  · intro hm
    have hb : (pyContains (pyLower (recipeTitle r)) (pyLower q) ||
        (recipeStrList r "tags").any
          (fun t => pyContains (pyLower t) (pyLower q)) ||
        (recipeStrList r "ingredients").any
          (fun t => pyContains (pyLower t) (pyLower q))) = true := by
      rw [Bool.or_eq_true, Bool.or_eq_true]
      rcases hm with hm | hm | hm
      · exact Or.inl (Or.inl ((pyContains_iff _ _).mpr hm))
      · obtain ⟨t, ht, hc⟩ := hm
        exact Or.inl (Or.inr (List.any_eq_true.mpr
          ⟨t, ht, (pyContains_iff _ _).mpr hc⟩))
      · obtain ⟨t, ht, hc⟩ := hm
        exact Or.inr (List.any_eq_true.mpr
          ⟨t, ht, (pyContains_iff _ _).mpr hc⟩)
    rw [hb]


/-! ## Further store lemmas -/

theorem canonical_obj_snoc {d : List (String × Json)} {k : String} {v : Json}
    (hd : canonical (.obj d) = true) (hv : canonical v = true)
    (hk : assocLookup d k = none) :
    canonical (.obj (d ++ [(k, v)])) = true := by
  rw [canonical_obj_eq, Bool.and_eq_true] at hd
  rw [canonical_obj_eq, Bool.and_eq_true]
  constructor
  · simp only [List.map_append, List.map_cons, List.map_nil]
    exact keysDistinct_append_singleton hd.1 ((assocLookup_none_iff d k).mp hk)
  · rw [canonicalFields_append, Bool.and_eq_true]
    refine ⟨hd.2, ?_⟩
    rw [canonicalFields_cons_eq, canonicalFields_nil_eq]
    simp [hv]

/-! ## The claims -/

/-- C6: `load_recipes` returns the current collection; an absent backing
document, or one whose contents do not parse as JSON, yields the empty
collection instead of signaling an error. -/
theorem C6_load_fail_soft (fs : FS) :
    (fs.doc = none → load_recipes fs = .obj []) ∧
    (∀ s, fs.doc = some s → parseJson s = none → load_recipes fs = .obj []) ∧
    (∀ s j, fs.doc = some s → parseJson s = some j → load_recipes fs = j) := by
  refine ⟨?_, ?_, ?_⟩
  · intro h
    unfold load_recipes
    rw [h]
  · intro s hdoc hparse
    unfold load_recipes
    rw [hdoc]
    simp only [hparse]
  · intro s j hdoc hparse
    unfold load_recipes
    rw [hdoc]
    simp only [hparse]

theorem C6_load_fail_soft_witness :
    load_recipes ⟨some "nonsense", []⟩ = .obj [] ∧
    load_recipes ⟨none, []⟩ = .obj [] :=
  ⟨(C6_load_fail_soft ⟨some "nonsense", []⟩).2.1 "nonsense" rfl rfl,
   (C6_load_fail_soft ⟨none, []⟩).1 rfl⟩

/-- C7: submitting the add-recipe form with a title that strips to the
empty string only reports a validation error: the handler returns `false`
and the state — both the backing document and the image directory — is the
unchanged `fs`, so no Recipe is inserted and no save happens. -/
theorem C7_blank_title_rejected (title ingredients_text steps tags_text :
    String) (image : Option (String × List Nat)) (rid now : String) (fs : FS)
    (h : pyStrip title = "") :
    add_recipe_form_submit title ingredients_text steps tags_text image rid
      now fs = some (fs, false) := by
  unfold add_recipe_form_submit
  rw [if_pos h]

theorem C7_blank_title_rejected_witness :
    add_recipe_form_submit "   " "2 eggs" "Mix." "breakfast" none "id1"
      "2024-01-01T00:00:00" ⟨none, []⟩ = some (⟨none, []⟩, false) :=
  C7_blank_title_rejected "   " "2 eggs" "Mix." "breakfast" none "id1"
    "2024-01-01T00:00:00" ⟨none, []⟩ rfl

/-- C10: when `add_recipe` receives image bytes but the original filename
is `None` or the empty string, the `image_name` truthiness test fails: the
bytes are silently discarded, no image file is written (the image store is
unchanged), and the inserted Recipe's `image` field is `null`. -/
theorem C10_image_bytes_discarded (title steps now rid : String)
    (ingredients tags : List String) (b : List Nat)
    (image_name : Option String) (fs : FS) (d : List (String × Json))
    (hload : load_recipes fs = .obj d)
    (hname : image_name = none ∨ image_name = some "") :
    add_recipe title ingredients steps tags (some b) image_name rid now fs =
      some (save_recipes (.obj (assocInsert d rid (Json.obj
        [("id", .str rid), ("title", .str title),
         ("ingredients", .arr (ingredients.map .str)),
         ("steps", .str steps), ("tags", .arr (tags.map .str)),
         ("image", .null), ("created_at", .str (now ++ "Z"))]))) fs) ∧
    ∀ fs', add_recipe title ingredients steps tags (some b) image_name rid
      now fs = some fs' → fs'.images = fs.images := by
  have h1 : add_recipe title ingredients steps tags (some b) image_name rid
      now fs = some (save_recipes (.obj (assocInsert d rid (Json.obj
        [("id", .str rid), ("title", .str title),
         ("ingredients", .arr (ingredients.map .str)),
         ("steps", .str steps), ("tags", .arr (tags.map .str)),
         ("image", .null), ("created_at", .str (now ++ "Z"))]))) fs) := by
    rcases hname with rfl | rfl <;> simp [add_recipe, hload]
  refine ⟨h1, ?_⟩
  intro fs' hfs'
  rw [h1] at hfs'
  have h2 := Option.some.inj hfs'
  rw [← h2]
  rfl

theorem C10_image_bytes_discarded_witness :
    add_recipe "Cake" [] "Bake." [] (some [1, 2, 3]) none "id1"
      "2024-01-01T00:00:00" ⟨none, []⟩ =
      some (save_recipes (.obj (assocInsert [] "id1" (Json.obj
        [("id", .str "id1"), ("title", .str "Cake"),
         ("ingredients", .arr (List.map .str [])),
         ("steps", .str "Bake."), ("tags", .arr (List.map .str [])),
         ("image", .null),
         ("created_at", .str ("2024-01-01T00:00:00" ++ "Z"))]))) ⟨none, []⟩) ∧
    ∀ fs', add_recipe "Cake" [] "Bake." [] (some [1, 2, 3]) none "id1"
      "2024-01-01T00:00:00" ⟨none, []⟩ = some fs' →
      fs'.images = FS.images ⟨none, []⟩ :=
  C10_image_bytes_discarded "Cake" "Bake." "2024-01-01T00:00:00" "id1"
    [] [] [1, 2, 3] none ⟨none, []⟩ [] rfl (Or.inl rfl)

/-- C1: a valid no-image `add_recipe` call — the stripped title non-empty,
the generated identifier not present in the prior collection — succeeds,
and a subsequent `load_recipes` returns exactly the prior collection plus
one new Recipe whose `title`, `ingredients`, `steps` and `tags` equal the
inputs, whose `image` field is null, whose key and `id` field are the fresh
identifier, and whose `created_at` is a non-empty string ending in "Z". -/
theorem C1_add_then_load (title steps now rid : String)
    (ingredients tags : List String) (fs : FS) (d : List (String × Json))
    (hload : load_recipes fs = .obj d)
    (hcanon : canonical (.obj d) = true)
    (htitle : pyStrip title ≠ "")
    (hfresh : assocLookup d rid = none) :
    ∃ fs', add_recipe title ingredients steps tags none none rid now fs =
      some fs' ∧
    load_recipes fs' = .obj (d ++ [(rid, Json.obj
      [("id", .str rid), ("title", .str title),
       ("ingredients", .arr (ingredients.map .str)),
       ("steps", .str steps), ("tags", .arr (tags.map .str)),
       ("image", .null), ("created_at", .str (now ++ "Z"))])]) ∧
    now ++ "Z" ≠ "" ∧ (now ++ "Z").toList.getLast? = some 'Z' := by
  have hmem := (assocLookup_none_iff d rid).mp hfresh
  have hrec : canonical (Json.obj
      [("id", .str rid), ("title", .str title),
       ("ingredients", .arr (ingredients.map .str)),
       ("steps", .str steps), ("tags", .arr (tags.map .str)),
       ("image", .null), ("created_at", .str (now ++ "Z"))]) = true :=
    canonical_recipeVal rid title steps (now ++ "Z") ingredients tags .null
      canonical_null_eq
  have hobj := canonical_obj_snoc hcanon hrec hfresh
  have h4 : (now ++ "Z").toList.getLast? = some 'Z' := by
    rw [string_toList_append, show ("Z" : String).toList = ['Z'] from rfl]
    exact List.getLast?_concat _
  refine ⟨save_recipes (.obj (d ++ [(rid, Json.obj
      [("id", .str rid), ("title", .str title),
       ("ingredients", .arr (ingredients.map .str)),
       ("steps", .str steps), ("tags", .arr (tags.map .str)),
       ("image", .null), ("created_at", .str (now ++ "Z"))])])) fs,
    ?_, ?_, ?_, h4⟩
  · simp [add_recipe, hload, assocInsert_append _ hmem]
  · exact load_recipes_save _ fs hobj
  · intro h
    rw [h] at h4
    simp at h4

theorem C1_add_then_load_witness :
    ∃ fs', add_recipe "Pancakes" ["2 eggs", "1 cup flour"] "Mix and fry."
      ["breakfast", "quick"] none none "id1" "2024-01-01T00:00:00"
      ⟨none, []⟩ = some fs' ∧
    load_recipes fs' = .obj ([] ++ [("id1", Json.obj
      [("id", .str "id1"), ("title", .str "Pancakes"),
       ("ingredients", .arr (List.map .str ["2 eggs", "1 cup flour"])),
       ("steps", .str "Mix and fry."),
       ("tags", .arr (List.map .str ["breakfast", "quick"])),
       ("image", .null),
       ("created_at", .str ("2024-01-01T00:00:00" ++ "Z"))])]) ∧
    "2024-01-01T00:00:00" ++ "Z" ≠ "" ∧
    ("2024-01-01T00:00:00" ++ "Z").toList.getLast? = some 'Z' :=
  C1_add_then_load "Pancakes" "Mix and fry." "2024-01-01T00:00:00" "id1"
    ["2 eggs", "1 cup flour"] ["breakfast", "quick"] ⟨none, []⟩ []
    rfl canonical_obj_nil (by decide) rfl


/-- C2: export-import round trip.  Exporting the loaded collection and
importing those bytes succeeds, and a subsequent load returns a collection
deep-equal to the original (the hypothesis states the loaded collection is
canonical: recipe keys are distinct at every object level, as Python dicts
guarantee). -/
theorem C2_export_import_roundtrip (fs : FS)
    (hc : canonical (load_recipes fs) = true) :
    (import_recipes (export_recipes_bytes fs) fs).2 = true ∧
    load_recipes (import_recipes (export_recipes_bytes fs) fs).1 =
      load_recipes fs := by
  have h1 : import_recipes (export_recipes_bytes fs) fs =
      (save_recipes (load_recipes fs) fs, true) := by
    unfold import_recipes export_recipes_bytes
    rw [utf8Decode_utf8Encode]
    simp only [parseJson_pyJsonDumps _ hc]
  rw [h1]
  exact ⟨rfl, load_recipes_save _ fs hc⟩

theorem C2_export_import_roundtrip_witness :
    (import_recipes (export_recipes_bytes ⟨none, []⟩) ⟨none, []⟩).2 = true ∧
    load_recipes
      (import_recipes (export_recipes_bytes ⟨none, []⟩) ⟨none, []⟩).1 =
      load_recipes ⟨none, []⟩ :=
  C2_export_import_roundtrip ⟨none, []⟩
    (show canonical (load_recipes ⟨none, []⟩) = true from canonical_obj_nil)

/-- C3 (counterexample): the import handler does no shape validation.  The
bytes of "[]" parse as a JSON array — not a Recipe Collection object — yet
the import reports success and saves, replacing the previously stored
(empty-object) collection with the array. -/
theorem C3_import_counterexample :
    (match parseJson "[]" with
      | some j => collectionShape j
      | none => false) = false ∧
    (import_recipes (utf8Encode "[]") ⟨some "{}", []⟩).2 = true ∧
    load_recipes (import_recipes (utf8Encode "[]") ⟨some "{}", []⟩).1 =
      .arr [] ∧
    load_recipes ⟨some "{}", []⟩ = .obj [] := by
  refine ⟨rfl, rfl, ?_, rfl⟩
  have h1 : (import_recipes (utf8Encode "[]") ⟨some "{}", []⟩).1 =
      save_recipes (Json.arr []) ⟨some "{}", []⟩ := rfl
  rw [h1]
  refine load_recipes_save _ _ ?_
  rw [canonical_arr_eq, canonicalList_nil_eq]

/-- C3 (amended): the import handler validates nothing beyond JSON
well-formedness.  Any byte input that decodes as UTF-8 and parses as JSON —
of any shape whatsoever — is saved wholesale, replacing the existing data,
and success is reported; only a decode or parse failure is caught, reported
as a failure, and leaves the state untouched. -/
theorem C3_import_no_shape_check (raw : List Nat) (fs : FS) :
    (∀ s j, utf8Decode raw = some s → parseJson s = some j →
      import_recipes raw fs = (save_recipes j fs, true)) ∧
    (∀ s, utf8Decode raw = some s → parseJson s = none →
      import_recipes raw fs = (fs, false)) ∧
    (utf8Decode raw = none → import_recipes raw fs = (fs, false)) := by
  refine ⟨?_, ?_, ?_⟩
  · intro s j hdec hparse
    unfold import_recipes
    simp only [hdec, hparse]
  · intro s hdec hparse
    unfold import_recipes
    simp only [hdec, hparse]
  · intro hdec
    unfold import_recipes
    simp only [hdec]

theorem C3_import_no_shape_check_witness :
    import_recipes (utf8Encode "[]") ⟨none, []⟩ =
      (save_recipes (Json.arr []) ⟨none, []⟩, true) ∧
    import_recipes (utf8Encode "nope") ⟨none, []⟩ = (⟨none, []⟩, false) ∧
    import_recipes [255] ⟨none, []⟩ = (⟨none, []⟩, false) :=
  ⟨(C3_import_no_shape_check (utf8Encode "[]") ⟨none, []⟩).1 "[]"
      (Json.arr []) rfl rfl,
   (C3_import_no_shape_check (utf8Encode "nope") ⟨none, []⟩).2.1 "nope"
      rfl rfl,
   (C3_import_no_shape_check [255] ⟨none, []⟩).2.2 rfl⟩

/-- C4: for a list of records of the documented Recipe shape, the search
filter succeeds and returns exactly the subset matched by the query — the
lower-cased query occurring as a substring of the lower-cased title, of
some tag, or of some ingredient line — while the empty query returns the
whole list. -/
theorem C4_search_filter (q : String) (rs : List Json)
    (hshape : ∀ r ∈ rs, recipeShape r = true) :
    ∃ res, search_filter q rs = some res ∧
      (q = "" → res = rs) ∧
      (∀ r, r ∈ res ↔ r ∈ rs ∧ (q ≠ "" → MatchesQuery q r)) := by
  by_cases hq : q = ""
  · subst hq
    refine ⟨rs, ?_, fun _ => rfl, ?_⟩
    · unfold search_filter
      rw [if_pos rfl]
    · intro r
      simp
  · obtain ⟨res, hres, hmem⟩ := filterMatches_spec (pyLower q) rs hshape
    refine ⟨res, ?_, fun h => absurd h hq, ?_⟩
    · unfold search_filter
      rw [if_neg hq]
      exact hres
    · intro r
      rw [hmem r]
      constructor
      · intro h
        exact ⟨h.1, fun _ =>
          (recipeMatches_iff q r (hshape r h.1)).mp h.2⟩
      · intro h
        exact ⟨h.1, (recipeMatches_iff q r (hshape r h.1)).mpr (h.2 hq)⟩

theorem C4_search_filter_witness :
    ∃ res, search_filter "break" [Json.obj
      [("id", .str "id1"), ("title", .str "Pancakes"),
       ("ingredients", .arr [.str "2 eggs"]), ("steps", .str "Mix."),
       ("tags", .arr [.str "breakfast"]), ("image", .null),
       ("created_at", .str "2024-01-01T00:00:00Z")]] = some res ∧
      ("break" = "" → res = [Json.obj
        [("id", .str "id1"), ("title", .str "Pancakes"),
         ("ingredients", .arr [.str "2 eggs"]), ("steps", .str "Mix."),
         ("tags", .arr [.str "breakfast"]), ("image", .null),
         ("created_at", .str "2024-01-01T00:00:00Z")]]) ∧
      (∀ r, r ∈ res ↔ r ∈ [Json.obj
        [("id", .str "id1"), ("title", .str "Pancakes"),
         ("ingredients", .arr [.str "2 eggs"]), ("steps", .str "Mix."),
         ("tags", .arr [.str "breakfast"]), ("image", .null),
         ("created_at", .str "2024-01-01T00:00:00Z")]] ∧
        ("break" ≠ "" → MatchesQuery "break" r)) :=
  C4_search_filter "break" [Json.obj
    [("id", .str "id1"), ("title", .str "Pancakes"),
     ("ingredients", .arr [.str "2 eggs"]), ("steps", .str "Mix."),
     ("tags", .arr [.str "breakfast"]), ("image", .null),
     ("created_at", .str "2024-01-01T00:00:00Z")]] (by decide)


/-- C5: `delete_recipe` on a collection of documented-shape records always
succeeds and saves the popped collection.  An absent identifier is a no-op
on the collection; a present identifier's record is removed, and when that
record carried a truthy (non-empty string) image reference the image file
is removed from the image store — `filesErase` is total, so a missing file
is swallowed, never an error — while a null or empty image reference
leaves the image store untouched. -/
theorem C5_delete_semantics (rid : String) (fs : FS)
    (d : List (String × Json))
    (hload : load_recipes fs = .obj d)
    (hcanon : canonical (.obj d) = true)
    (hshape : ∀ v, assocLookup d rid = some v → recipeShape v = true) :
    ∃ fs', delete_recipe rid fs = some fs' ∧
      load_recipes fs' = .obj (assocPop d rid).2 ∧
      (assocLookup d rid = none → (assocPop d rid).2 = d) ∧
      (∀ rf, assocLookup d rid = some (.obj rf) →
        ((∃ fn, fn ≠ "" ∧ assocLookup rf "image" = some (.str fn) ∧
            fs'.images = filesErase fs.images fn) ∨
          ((∀ fn, assocLookup rf "image" = some (.str fn) → fn = "") ∧
            fs'.images = fs.images))) := by
  have hpopc := canonical_assocPop d rid hcanon
  cases hlook : assocLookup d rid with
  | none =>
      have hpop1 : (assocPop d rid).1 = none := by
        rw [assocPop_fst]
        exact hlook
      refine ⟨save_recipes (.obj (assocPop d rid).2) fs, ?_,
        load_recipes_save _ fs hpopc,
        fun _ => assocPop_none d rid hlook, ?_⟩
      · simp [delete_recipe, hload, hpop1]
      · intro rf hrf
        exact Option.noConfusion hrf
  | some v =>
      have hs := hshape v hlook
      obtain ⟨rf, rfl, _, _, _, himg⟩ := recipeShape_obj hs
      have hpop1 : (assocPop d rid).1 = some (.obj rf) := by
        rw [assocPop_fst]
        exact hlook
      have hne : rf ≠ [] := by
        intro h
        subst h
        rcases himg with h1 | ⟨fn, h1⟩ <;> exact Option.noConfusion h1
      have htr : (Json.obj rf).truthy = true := by
        cases rf with
        | nil => exact absurd rfl hne
        | cons p ps => rfl
      rcases himg with hnull | ⟨fn, hfn⟩
      · refine ⟨save_recipes (.obj (assocPop d rid).2) fs, ?_,
          load_recipes_save _ fs hpopc, ?_, ?_⟩
        · simp [delete_recipe, hload, hpop1, htr, hnull, Json.truthy]
        · intro h
          exact Option.noConfusion h
        · intro rf' hrf'
          have hrr := Json.obj.inj (Option.some.inj hrf')
          subst hrr
          refine Or.inr ⟨?_, rfl⟩
          intro fn' h'
          rw [hnull] at h'
          exact Json.noConfusion (Option.some.inj h')
      · by_cases hfe : fn = ""
        · subst hfe
          refine ⟨save_recipes (.obj (assocPop d rid).2) fs, ?_,
            load_recipes_save _ fs hpopc, ?_, ?_⟩
          · simp [delete_recipe, hload, hpop1, htr, hfn, Json.truthy]
          · intro h
            exact Option.noConfusion h
          · intro rf' hrf'
            have hrr := Json.obj.inj (Option.some.inj hrf')
            subst hrr
            refine Or.inr ⟨?_, rfl⟩
            intro fn' h'
            rw [hfn] at h'
            exact (Json.str.inj (Option.some.inj h')).symm
        · have htrs : (Json.str fn).truthy = true := by
            simp [Json.truthy]
            exact hfe
          refine ⟨save_recipes (.obj (assocPop d rid).2)
            { fs with images := filesErase fs.images fn }, ?_,
            load_recipes_save _ _ hpopc, ?_, ?_⟩
          · simp [delete_recipe, hload, hpop1, htr, htrs, hfn, Json.truthy]
            refine ⟨filesErase fs.images fn, ?_, rfl⟩
            rw [if_pos (show (!rf.isEmpty) = true from htr), if_neg hfe]
          · intro h
            exact Option.noConfusion h
          · intro rf' hrf'
            have hrr := Json.obj.inj (Option.some.inj hrf')
            subst hrr
            exact Or.inl ⟨fn, hfe, hfn, rfl⟩


theorem C5_delete_semantics_witness :
    ∃ fs', delete_recipe "id1" (save_recipes (Json.obj [("id1", Json.obj [("id", .str "id1"), ("title", .str "Pancakes"), ("ingredients", .arr (List.map Json.str ["2 eggs"])), ("steps", .str "Mix."), ("tags", .arr (List.map Json.str ["b"])), ("image", .str "id1.jpg"), ("created_at", .str "T")])]) ⟨none, [("id1.jpg", [1, 2])]⟩) = some fs' ∧
      load_recipes fs' = .obj (assocPop [("id1", Json.obj [("id", .str "id1"), ("title", .str "Pancakes"), ("ingredients", .arr (List.map Json.str ["2 eggs"])), ("steps", .str "Mix."), ("tags", .arr (List.map Json.str ["b"])), ("image", .str "id1.jpg"), ("created_at", .str "T")])] "id1").2 ∧
      (assocLookup [("id1", Json.obj [("id", .str "id1"), ("title", .str "Pancakes"), ("ingredients", .arr (List.map Json.str ["2 eggs"])), ("steps", .str "Mix."), ("tags", .arr (List.map Json.str ["b"])), ("image", .str "id1.jpg"), ("created_at", .str "T")])] "id1" = none →
        (assocPop [("id1", Json.obj [("id", .str "id1"), ("title", .str "Pancakes"), ("ingredients", .arr (List.map Json.str ["2 eggs"])), ("steps", .str "Mix."), ("tags", .arr (List.map Json.str ["b"])), ("image", .str "id1.jpg"), ("created_at", .str "T")])] "id1").2 = [("id1", Json.obj [("id", .str "id1"), ("title", .str "Pancakes"), ("ingredients", .arr (List.map Json.str ["2 eggs"])), ("steps", .str "Mix."), ("tags", .arr (List.map Json.str ["b"])), ("image", .str "id1.jpg"), ("created_at", .str "T")])]) ∧
      (∀ rf, assocLookup [("id1", Json.obj [("id", .str "id1"), ("title", .str "Pancakes"), ("ingredients", .arr (List.map Json.str ["2 eggs"])), ("steps", .str "Mix."), ("tags", .arr (List.map Json.str ["b"])), ("image", .str "id1.jpg"), ("created_at", .str "T")])] "id1" = some (.obj rf) →
        ((∃ fn, fn ≠ "" ∧ assocLookup rf "image" = some (.str fn) ∧
            fs'.images = filesErase (save_recipes (Json.obj [("id1", Json.obj [("id", .str "id1"), ("title", .str "Pancakes"), ("ingredients", .arr (List.map Json.str ["2 eggs"])), ("steps", .str "Mix."), ("tags", .arr (List.map Json.str ["b"])), ("image", .str "id1.jpg"), ("created_at", .str "T")])]) ⟨none, [("id1.jpg", [1, 2])]⟩).images fn) ∨
          ((∀ fn, assocLookup rf "image" = some (.str fn) → fn = "") ∧
            fs'.images = (save_recipes (Json.obj [("id1", Json.obj [("id", .str "id1"), ("title", .str "Pancakes"), ("ingredients", .arr (List.map Json.str ["2 eggs"])), ("steps", .str "Mix."), ("tags", .arr (List.map Json.str ["b"])), ("image", .str "id1.jpg"), ("created_at", .str "T")])]) ⟨none, [("id1.jpg", [1, 2])]⟩).images))) := by
  have hC : canonical (Json.obj [("id1", Json.obj [("id", .str "id1"), ("title", .str "Pancakes"), ("ingredients", .arr (List.map Json.str ["2 eggs"])), ("steps", .str "Mix."), ("tags", .arr (List.map Json.str ["b"])), ("image", .str "id1.jpg"), ("created_at", .str "T")])]) = true :=
    canonical_obj_snoc canonical_obj_nil
      (canonical_recipeVal "id1" "Pancakes" "Mix." "T" ["2 eggs"] ["b"]
        (Json.str "id1.jpg") (canonical_str_eq "id1.jpg")) rfl
  exact C5_delete_semantics "id1" (save_recipes (Json.obj [("id1", Json.obj [("id", .str "id1"), ("title", .str "Pancakes"), ("ingredients", .arr (List.map Json.str ["2 eggs"])), ("steps", .str "Mix."), ("tags", .arr (List.map Json.str ["b"])), ("image", .str "id1.jpg"), ("created_at", .str "T")])]) ⟨none, [("id1.jpg", [1, 2])]⟩) [("id1", Json.obj [("id", .str "id1"), ("title", .str "Pancakes"), ("ingredients", .arr (List.map Json.str ["2 eggs"])), ("steps", .str "Mix."), ("tags", .arr (List.map Json.str ["b"])), ("image", .str "id1.jpg"), ("created_at", .str "T")])]
    (load_recipes_save _ _ hC) hC
    (fun v hv => by
      have h2 := Option.some.inj hv
      subst h2
      rfl)


/-- C8: when image bytes and a truthy original filename are supplied,
`add_recipe` stores the image under the fresh identifier concatenated with
the original filename's extension — `.jpg` when the original name has no
extension — writes the bytes under that name, records it in the Recipe's
`image` field, and the stored filename contains no slash, so no
subdirectory of the image directory is ever involved. -/
theorem C8_image_filename (title steps now rid nm : String)
    (ingredients tags : List String) (b : List Nat) (fs : FS)
    (d : List (String × Json))
    (hload : load_recipes fs = .obj d)
    (hnm : nm ≠ "")
    (hrid : ∀ c ∈ rid.toList, c ≠ '/') :
    ∃ ext, ext = (if pathSuffix nm = "" then ".jpg" else pathSuffix nm) ∧
      add_recipe title ingredients steps tags (some b) (some nm) rid now fs =
        some (save_recipes (.obj (assocInsert d rid (Json.obj
          [("id", .str rid), ("title", .str title),
           ("ingredients", .arr (ingredients.map .str)),
           ("steps", .str steps), ("tags", .arr (tags.map .str)),
           ("image", .str (rid ++ ext)),
           ("created_at", .str (now ++ "Z"))])))
          { fs with images := filesInsert fs.images (rid ++ ext) b }) ∧
      (∀ c ∈ (rid ++ ext).toList, c ≠ '/') := by
  refine ⟨if pathSuffix nm = "" then ".jpg" else pathSuffix nm, rfl, ?_, ?_⟩
  · simp [add_recipe, hload, hnm]
  · intro c hc
    rw [string_toList_append] at hc
    rcases List.mem_append.mp hc with h | h
    · exact hrid c h
    · by_cases hps : pathSuffix nm = ""
      · rw [if_pos hps] at h
        intro heq
        subst heq
        revert h
        decide
      · rw [if_neg hps] at h
        exact pathSuffix_no_slash nm c h

theorem C8_image_filename_witness :
    ∃ ext, ext = (if pathSuffix "photo.png" = "" then ".jpg"
        else pathSuffix "photo.png") ∧
      add_recipe "Cake" [] "Bake." [] (some [9, 8]) (some "photo.png")
        "id1" "2024-01-01T00:00:00" ⟨none, []⟩ =
        some (save_recipes (.obj (assocInsert [] "id1" (Json.obj
          [("id", .str "id1"), ("title", .str "Cake"),
           ("ingredients", .arr (List.map .str [])),
           ("steps", .str "Bake."), ("tags", .arr (List.map .str [])),
           ("image", .str ("id1" ++ ext)),
           ("created_at", .str ("2024-01-01T00:00:00" ++ "Z"))])))
          (⟨none, filesInsert [] ("id1" ++ ext) [9, 8]⟩ : FS)) ∧
      (∀ c ∈ ("id1" ++ ext).toList, c ≠ '/') :=
  C8_image_filename "Cake" "Bake." "2024-01-01T00:00:00" "id1" "photo.png"
    [] [] [9, 8] ⟨none, []⟩ [] rfl (by decide) (by decide)

/-- C9: both export paths produce the UTF-8 encoding of the
`ensure_ascii=False, indent=2` serialization; any character at or above
U+0080 is rendered verbatim (never escaped); a non-empty object is
rendered with a newline and two-spaces-per-level indentation before each
field, the fields laid out in list order separated by a comma, newline and
indent. -/
theorem C9_export_format (fs : FS) (r : Json) :
    export_recipes_bytes fs = utf8Encode (pyJsonDumps (load_recipes fs)) ∧
    export_recipe_bytes r = utf8Encode (pyJsonDumps r) ∧
    (∀ c : Char, 0x80 ≤ c.toNat → escChar c = [c]) ∧
    (∀ lvl (f : String × Json) (gs : List (String × Json)),
      renderJson lvl (.obj (f :: gs)) = '{' :: '\n' ::
        (indentChars (lvl + 1) ++ renderField (lvl + 1) f ++
          renderObjTail (lvl + 1) gs ++ '\n' :: (indentChars lvl ++ ['}']))) ∧
    (∀ lvl (g : String × Json) (gs : List (String × Json)),
      renderObjTail lvl (g :: gs) = ',' :: '\n' ::
        (indentChars lvl ++ renderField lvl g ++ renderObjTail lvl gs)) ∧
    (∀ lvl, indentChars lvl = List.replicate (2 * lvl) ' ') := by
  refine ⟨rfl, rfl, ?_, renderJson_obj_cons, renderObjTail_cons,
    fun _ => rfl⟩
  intro c hcn
  have h1 : c ≠ '"' := char_ne_of_toNat_ne
    (by rw [show ('"').toNat = 34 from rfl]; omega)
  have h2 : c ≠ '\\' := char_ne_of_toNat_ne
    (by rw [show ('\\').toNat = 92 from rfl]; omega)
  have h3 : c ≠ '\x08' := char_ne_of_toNat_ne
    (by rw [show ('\x08').toNat = 8 from rfl]; omega)
  have h4 : c ≠ '\x0c' := char_ne_of_toNat_ne
    (by rw [show ('\x0c').toNat = 12 from rfl]; omega)
  have h5 : c ≠ '\n' := char_ne_of_toNat_ne
    (by rw [show ('\n').toNat = 10 from rfl]; omega)
  have h6 : c ≠ '\r' := char_ne_of_toNat_ne
    (by rw [show ('\r').toNat = 13 from rfl]; omega)
  have h7 : c ≠ '\t' := char_ne_of_toNat_ne
    (by rw [show ('\t').toNat = 9 from rfl]; omega)
  unfold escChar
  rw [if_neg h1, if_neg h2, if_neg h3, if_neg h4, if_neg h5, if_neg h6,
    if_neg h7, if_neg (by omega : ¬c.toNat < 0x20)]

theorem C9_export_format_witness :
    export_recipes_bytes ⟨none, []⟩ =
      utf8Encode (pyJsonDumps (load_recipes ⟨none, []⟩)) ∧
    escChar '煎' = ['煎'] ∧
    renderJson 0 (.obj [("a", .null)]) = '{' :: '\n' ::
      (indentChars 1 ++ renderField 1 ("a", .null) ++
        renderObjTail 1 [] ++ '\n' :: (indentChars 0 ++ ['}'])) :=
  ⟨(C9_export_format ⟨none, []⟩ .null).1,
   (C9_export_format ⟨none, []⟩ .null).2.2.1 '煎' (by decide),
   (C9_export_format ⟨none, []⟩ .null).2.2.2.1 0 ("a", .null) []⟩

end Cookbook
